import Mathlib

/-!
Verification of the EnhanceOutput repository (`eo.cpp` and the unnamed
alternative revision, here called `p0`).

The repository pipes command output through an Ollama endpoint and
post-processes the reply.  We shallowly embed, over `List Char`:

* the response-sanitizer pipeline of `enhance_with_ai` (both revisions):
  each `std::regex_replace` pass is embedded as a deterministic
  left-to-right scanner (`scan`) with a per-pass matcher function; the
  concrete regexes used by the program are simple enough that their
  ECMAScript leftmost/greedy semantics collapse to the deterministic
  matchers written below (justified in each matcher's comment),
* `unescape_string`,
* `detect_format` of both revisions, together with a model of
  `nlohmann::json::parse` (grammar-faithful; non-integer numbers are
  carried as their source token, see `JsonVal.numFloat`),
* `format_json` (`dump(4)`; nlohmann's default `json` stores objects in a
  `std::map`, i.e. keys sorted, duplicates overwritten by the last value),
* the row/field parsing of `format_table` and its column-width table,
* the `main` control flow of `eo.cpp`, with the two HTTP calls and the
  terminal abstracted as oracle parameters.

Bytes are modelled as Lean `Char`s (all inputs of interest are ASCII /
well-formed UTF-8; nlohmann's UTF-8 byte validation is outside the model).
-/

namespace EnhanceOutput

/-! ### Basic list helpers -/

/-- `std::string::find(pat) != npos`: does `p` occur as a contiguous
subsequence of the list? -/
def containsSeq (p : List Char) : List Char → Bool
  | [] => p.isPrefixOf []
  | c :: t => p.isPrefixOf (c :: t) || containsSeq p t

/-- ASCII escape character, `\033`. -/
def escChar : Char := '\x1b'

/-! ### Generic replacement scanner

`std::regex_replace` scans the subject left to right; at each position it
tries to match; on a match it appends the replacement and resumes after
the matched characters (replacements are not rescanned); otherwise it
copies one character and advances.  `scan m` implements exactly this for a
matcher `m` that returns the replacement and the number of characters
matched.  Fuel is structural so that the functions compute by `decide`;
every matcher below consumes at least one character on a match, so
`fuel = length + 1` always suffices. -/

def scan (m : List Char → Option (List Char × Nat)) : Nat → List Char → List Char
  | 0, s => s
  | _ + 1, [] => []
  | fuel + 1, c :: rest =>
    match m (c :: rest) with
    | some (out, k) => out ++ scan m fuel (List.drop k (c :: rest))
    | none => c :: scan m fuel rest

/-- One whole `regex_replace` pass. -/
def passOf (m : List Char → Option (List Char × Nat)) (s : List Char) : List Char :=
  scan m (s.length + 1) s

/-! ### Matchers for the individual regex passes -/

/-- `unescape_string` (identical in both revisions).  The C++ loop copies
characters, rewriting `\\`, `\n`, `\t`, `\r` (two chars consumed) and
`\033` (four chars consumed) to the corresponding control characters; a
backslash followed by anything else (including `\0` not followed by `33`,
and a trailing backslash) is copied as a single character, which is what
the scanner's default step does, so those cases return `none` here. -/
def escM (t : List Char) : Option (List Char × Nat) :=
  if ['\\', '\\'].isPrefixOf t then some (['\\'], 2)
  else if ['\\', 'n'].isPrefixOf t then some (['\n'], 2)
  else if ['\\', 't'].isPrefixOf t then some (['\t'], 2)
  else if ['\\', 'r'].isPrefixOf t then some (['\r'], 2)
  else if ['\\', '0', '3', '3'].isPrefixOf t then some ([escChar], 4)
  else none

def unescape_string (s : List Char) : List Char := passOf escM s

/-- `"\n*Note:.*$"` (multiline), replaced by `""`.  Greedy `\n*` must reach
`Note:` exactly (a shorter newline run is followed by `'\n'`, not `'N'`),
`.` matches anything but a line terminator, and multiline `$` then always
holds, so a match is: a run of newlines, `Note:`, then the rest of the
line. -/
def noteM (t : List Char) : Option (List Char × Nat) :=
  let nl := t.takeWhile (· = '\n')
  let t2 := t.drop nl.length
  if ("Note:".data).isPrefixOf t2 then
    some ([], nl.length + 5 + ((t2.drop 5).takeWhile (fun c => c ≠ '\n' && c ≠ '\r')).length)
  else none

def notePass (s : List Char) : List Char := passOf noteM s

/-- `"\*\*([^\*]+)\*\*"` → `"\033[1m$1\033[0m"` (or `"$1"` without colors,
`eo.cpp` only; `p0` always colors).  Greedy `[^\*]+` takes the maximal
star-free run; a shorter run is followed by a non-star, so the `\*\*` that
must follow can only match right after the maximal run. -/
def boldM (useColors : Bool) (t : List Char) : Option (List Char × Nat) :=
  if ['*', '*'].isPrefixOf t then
    let rest := t.drop 2
    let run := rest.takeWhile (· ≠ '*')
    if (!run.isEmpty) && ['*', '*'].isPrefixOf (rest.drop run.length) then
      some ((if useColors then escChar :: "[1m".data ++ run ++ escChar :: "[0m".data else run),
        run.length + 4)
    else none
  else none

def boldPass (useColors : Bool) (s : List Char) : List Char := passOf (boldM useColors) s

/-- `color + "\[\*\*([^\*]+)\*\*\]"` → color code + `"\033[1m$1\033[0m"`
(or `"$1"`), `eo.cpp` only.  Same greedy argument as `boldM`: after the
maximal star-free run the regex requires the literal `**]`. -/
def colorM (name code : List Char) (useColors : Bool) (t : List Char) :
    Option (List Char × Nat) :=
  let pat := name ++ "[**".data
  if pat.isPrefixOf t then
    let rest := t.drop pat.length
    let run := rest.takeWhile (· ≠ '*')
    if (!run.isEmpty) && ("**]".data).isPrefixOf (rest.drop run.length) then
      some ((if useColors then code ++ escChar :: "[1m".data ++ run ++ escChar :: "[0m".data
        else run), pat.length + run.length + 3)
    else none
  else none

/-- The four color passes of `eo.cpp`, in `std::map<std::string, ...>`
iteration order: blue (34), green (32), red (31), yellow (33). -/
def colorPass (useColors : Bool) (s : List Char) : List Char :=
  passOf (colorM "yellow".data (escChar :: "[33m".data) useColors)
    (passOf (colorM "red".data (escChar :: "[31m".data) useColors)
      (passOf (colorM "green".data (escChar :: "[32m".data) useColors)
        (passOf (colorM "blue".data (escChar :: "[34m".data) useColors) s)))

/-- `"\|_+\|"` → `""`.  Greedy `_+` takes the maximal underscore run and
the closing `\|` must follow it. -/
def tb1M (t : List Char) : Option (List Char × Nat) :=
  if ['|'].isPrefixOf t then
    let rest := t.drop 1
    let run := rest.takeWhile (· = '_')
    if (!run.isEmpty) && ['|'].isPrefixOf (rest.drop run.length) then
      some ([], run.length + 2)
    else none
  else none

def isDashSp (c : Char) : Bool := c = '-' || c = ' '

/-- `"\|[- ]+\|[- ]+\|"` → `""`.  Both `[- ]+` runs are maximal: a shorter
run is followed by `'-'` or `' '`, never the required `'|'`. -/
def tb2M (t : List Char) : Option (List Char × Nat) :=
  if ['|'].isPrefixOf t then
    let rest := t.drop 1
    let r1 := rest.takeWhile isDashSp
    if r1.isEmpty then none
    else if ['|'].isPrefixOf (rest.drop r1.length) then
      let rest2 := (rest.drop r1.length).drop 1
      let r2 := rest2.takeWhile isDashSp
      if (!r2.isEmpty) && ['|'].isPrefixOf (rest2.drop r2.length) then
        some ([], r1.length + r2.length + 3)
      else none
    else none
  else none

/-- `"\| "` → `""`. -/
def trsM (t : List Char) : Option (List Char × Nat) :=
  if ['|', ' '].isPrefixOf t then some ([], 2) else none

/-- `" \|"` → `""`. -/
def treM (t : List Char) : Option (List Char × Nat) :=
  if [' ', '|'].isPrefixOf t then some ([], 2) else none

/-- `" \| "` → `"  "`. -/
def tcdM (t : List Char) : Option (List Char × Nat) :=
  if [' ', '|', ' '].isPrefixOf t then some ([' ', ' '], 3) else none

/-- The five markdown-table cleanup passes, in program order. -/
def tablePass (s : List Char) : List Char :=
  passOf tcdM (passOf treM (passOf trsM (passOf tb2M (passOf tb1M s))))

/-- `"<think>[^<]*</think>"` → `""` (`p0` only).  Greedy `[^<]*` takes the
maximal `<`-free run and the regex then requires the literal `</think>`;
a shorter run ends before a non-`<` character, so only the maximal run can
be followed by `<`. -/
def thinkM (t : List Char) : Option (List Char × Nat) :=
  if ("<think>".data).isPrefixOf t then
    let rest := t.drop 7
    let run := rest.takeWhile (· ≠ '<')
    if ("</think>".data).isPrefixOf (rest.drop run.length) then
      some ([], 7 + run.length + 8)
    else none
  else none

def thinkPass (s : List Char) : List Char := passOf thinkM s

def isAlnumAscii (c : Char) : Bool :=
  ('a' ≤ c && c ≤ 'z') || ('A' ≤ c && c ≤ 'Z') || ('0' ≤ c && c ≤ '9')

/-- ``"```[a-zA-Z0-9]*\n?[^`]*?```"`` → `""` (`p0` only).  `[^`]` also
matches letters and newlines, so the `[a-zA-Z0-9]*\n?` part adds nothing:
with the lazy `[^`]*?`, the match extends to the first backtick after the
opener, where the literal ``` ``` `` must start; if it does not, no split
of the prefix rescues the match (every alternative path stops at the same
first backtick). -/
def fence1M (t : List Char) : Option (List Char × Nat) :=
  if ['`', '`', '`'].isPrefixOf t then
    let rest := t.drop 3
    let run := rest.takeWhile (· ≠ '`')
    if ['`', '`', '`'].isPrefixOf (rest.drop run.length) then
      some ([], run.length + 6)
    else none
  else none

/-- ``"```[a-zA-Z0-9]*\n?|\n?```"`` → `""` (`p0` only).  The first
alternative fires at every position starting with ``` ``` `` (consuming a
trailing language tag and optional newline); the second alternative can
therefore only fire at a `'\n'` directly followed by ``` ``` ``. -/
def fence2M (t : List Char) : Option (List Char × Nat) :=
  if ['`', '`', '`'].isPrefixOf t then
    let rest := t.drop 3
    let run := rest.takeWhile isAlnumAscii
    let extra := if ['\n'].isPrefixOf (rest.drop run.length) then 1 else 0
    some ([], 3 + run.length + extra)
  else if ['\n', '`', '`', '`'].isPrefixOf t then some ([], 4)
  else none

def fencePass (s : List Char) : List Char := passOf fence2M (passOf fence1M s)

/-- `find_first_not_of(" \n\r\t")` whitespace set used by `p0`'s final
trim. -/
def isTrimWs (c : Char) : Bool := c = ' ' || c = '\n' || c = '\r' || c = '\t'

/-- `p0`'s final trim of leading/trailing whitespace. -/
def trimWS (s : List Char) : List Char :=
  ((s.dropWhile isTrimWs).reverse.dropWhile isTrimWs).reverse

/-! ### The two sanitizer pipelines -/

/-- Response sanitizer of `eo.cpp`'s `enhance_with_ai` (lines 196-224):
unescape, strip `Note:` trailers, bold rewrite, the four color rewrites,
then the five table-artifact passes. -/
def sanitize_eo (useColors : Bool) (s : List Char) : List Char :=
  tablePass (colorPass useColors (boldPass useColors (notePass (unescape_string s))))

/-- Response sanitizer of the `p0` revision (lines 302-352): think-tag
strip, unescape, `Note:` strip, the two fence passes, bold rewrite, the
color rewrites, table passes, final trim.  The `p0` color regex
`color + "\$$   \*\*([^\*]+)\*\*\   $$"` demands a literal character right
after an end-of-line/end-of-input anchor `$`, which no subject can
satisfy, so that pass never rewrites anything and is the identity here. -/
def sanitize_p0 (s : List Char) : List Char :=
  trimWS (tablePass (boldPass true (fencePass (notePass (unescape_string (thinkPass s))))))

/-! ### JSON model (nlohmann::json)

`nlohmann::json` with default template arguments stores objects in a
`std::map<std::string, json>`: members are kept sorted by key
(lexicographic byte order) and a duplicate key overwrites the earlier
value.  Integer tokens that fit `int64_t`/`uint64_t` are stored exactly;
any other numeric token (fraction, exponent, or out-of-range integer) is
stored as an IEEE double.  Doubles are outside this embedding:
`JsonVal.numFloat` carries the raw source token instead, and every
theorem whose meaning depends on double serialization is restricted away
from that constructor. -/

inductive JsonVal where
  | null : JsonVal
  | bool : Bool → JsonVal
  | numInt : Int → JsonVal
  | numFloat : List Char → JsonVal
  | str : List Char → JsonVal
  | arr : List JsonVal → JsonVal
  | obj : List (List Char × JsonVal) → JsonVal

def JsonVal.isObjOrArr : JsonVal → Bool
  | .obj _ => true
  | .arr _ => true
  | _ => false

/-- Insertion into the sorted member list, mirroring
`std::map::operator[]` followed by assignment: sorted position, last
duplicate wins.  `<` on `List Char` is the lexicographic order. -/
def insertKV (k : List Char) (v : JsonVal) : List (List Char × JsonVal) →
    List (List Char × JsonVal)
  | [] => [(k, v)]
  | (k', v') :: t =>
    if k < k' then (k, v) :: (k', v') :: t
    else if k = k' then (k, v) :: t
    else (k', v') :: insertKV k v t

/-- Whitespace skipped by the nlohmann lexer. -/
def isJsonWs (c : Char) : Bool := c = ' ' || c = '\t' || c = '\n' || c = '\r'

def skipWs (s : List Char) : List Char := s.dropWhile isJsonWs

def isDigitC (c : Char) : Bool := '0' ≤ c && c ≤ '9'

def digitVal (c : Char) : Nat := c.toNat - '0'.toNat

def natOfDigits (l : List Char) : Nat := l.foldl (fun a c => a * 10 + digitVal c) 0

def hexVal (c : Char) : Option Nat :=
  if 48 ≤ c.toNat ∧ c.toNat ≤ 57 then some (c.toNat - 48)
  else if 97 ≤ c.toNat ∧ c.toNat ≤ 102 then some (c.toNat - 87)
  else if 65 ≤ c.toNat ∧ c.toNat ≤ 70 then some (c.toNat - 55)
  else none

/-- The sign prefix of a number token. -/
def signChars (neg : Bool) : List Char := if neg then ['-'] else []

/-- Classify a fully lexed number token (nlohmann `lexer::scan_number`):
pure integers fitting `int64_t` / `uint64_t` are stored exactly; anything
else falls back to `strtod` and is kept here as its raw token. -/
def classifyNumber (neg : Bool) (intDs : List Char) (tok : List Char)
    (isInt : Bool) (rest : List Char) : Option (JsonVal × List Char) :=
  if isInt then
    if neg then
      if natOfDigits intDs ≤ 2 ^ 63 then some (.numInt (-(natOfDigits intDs : Int)), rest)
      else some (.numFloat tok, rest)
    else
      if natOfDigits intDs < 2 ^ 64 then some (.numInt ((natOfDigits intDs : Int)), rest)
      else some (.numFloat tok, rest)
  else some (.numFloat tok, rest)

/-- Exponent part `([eE][+-]?[0-9]+)?`; a present `e`/`E` without digits is
a lexer error (whole parse fails). Returns (expChars, isInt, rest). -/
def parseExpPart (s : List Char) : Option (List Char × Bool × List Char) :=
  match s with
  | 'e' :: r =>
    match r with
    | '+' :: r2 =>
      let ds := r2.takeWhile isDigitC
      if ds.isEmpty then none else some ('e' :: '+' :: ds, false, r2.drop ds.length)
    | '-' :: r2 =>
      let ds := r2.takeWhile isDigitC
      if ds.isEmpty then none else some ('e' :: '-' :: ds, false, r2.drop ds.length)
    | _ =>
      let ds := r.takeWhile isDigitC
      if ds.isEmpty then none else some ('e' :: ds, false, r.drop ds.length)
  | 'E' :: r =>
    match r with
    | '+' :: r2 =>
      let ds := r2.takeWhile isDigitC
      if ds.isEmpty then none else some ('E' :: '+' :: ds, false, r2.drop ds.length)
    | '-' :: r2 =>
      let ds := r2.takeWhile isDigitC
      if ds.isEmpty then none else some ('E' :: '-' :: ds, false, r2.drop ds.length)
    | _ =>
      let ds := r.takeWhile isDigitC
      if ds.isEmpty then none else some ('E' :: ds, false, r.drop ds.length)
  | _ => some ([], true, s)

/-- Fraction and exponent part of a number token; `.` without a following
digit is a lexer error. -/
def parseFracExp (neg : Bool) (intDs : List Char) (s : List Char) :
    Option (JsonVal × List Char) :=
  match s with
  | '.' :: r =>
    let fd := r.takeWhile isDigitC
    if fd.isEmpty then none
    else
      match parseExpPart (r.drop fd.length) with
      | none => none
      | some (ex, _, rest) =>
        classifyNumber neg intDs (signChars neg ++ intDs ++ '.' :: fd ++ ex) false rest
  | _ =>
    match parseExpPart s with
    | none => none
    | some (ex, isInt, rest) =>
      classifyNumber neg intDs (signChars neg ++ intDs ++ ex) isInt rest

/-- JSON number grammar `-?(0|[1-9][0-9]*)(\.[0-9]+)?([eE][+-]?[0-9]+)?`.
After a leading `0` no further integer digits are consumed (so `01` later
fails as trailing garbage, exactly like nlohmann's parse error). -/
def parseNumber (s : List Char) : Option (JsonVal × List Char) :=
  match s with
  | '-' :: s1 =>
    match s1 with
    | '0' :: r => parseFracExp true ['0'] r
    | c :: r =>
      if isDigitC c then
        let ds := (c :: r).takeWhile isDigitC
        parseFracExp true ds ((c :: r).drop ds.length)
      else none
    | [] => none
  | '0' :: r => parseFracExp false ['0'] r
  | c :: r =>
    if isDigitC c then
      let ds := (c :: r).takeWhile isDigitC
      parseFracExp false ds ((c :: r).drop ds.length)
    else none
  | [] => none

/-- Body of a JSON string after the opening quote: plain characters above
0x1f, the short escapes, and `\uXXXX` with mandatory surrogate pairing;
unescaped control characters and bad escapes are errors. -/
def parseStringBody : Nat → List Char → Option (List Char × List Char)
  | 0, _ => none
  | _ + 1, [] => none
  | fuel + 1, c :: r =>
    if c = '"' then some ([], r)
    else if c = '\\' then
      match r with
      | 'u' :: h1 :: h2 :: h3 :: h4 :: r2 =>
        match hexVal h1, hexVal h2, hexVal h3, hexVal h4 with
        | some a, some b, some g, some d =>
          let code := ((a * 16 + b) * 16 + g) * 16 + d
          if 0xd800 ≤ code && code ≤ 0xdbff then
            match r2 with
            | '\\' :: 'u' :: g1 :: g2 :: g3 :: g4 :: r3 =>
              match hexVal g1, hexVal g2, hexVal g3, hexVal g4 with
              | some a2, some b2, some c2, some d2 =>
                let low := ((a2 * 16 + b2) * 16 + c2) * 16 + d2
                if 0xdc00 ≤ low && low ≤ 0xdfff then
                  (parseStringBody fuel r3).map (fun p =>
                    (Char.ofNat (0x10000 + (code - 0xd800) * 0x400 + (low - 0xdc00)) :: p.1,
                      p.2))
                else none
              | _, _, _, _ => none
            | _ => none
          else if 0xdc00 ≤ code && code ≤ 0xdfff then none
          else (parseStringBody fuel r2).map (fun p => (Char.ofNat code :: p.1, p.2))
        | _, _, _, _ => none
      | '"' :: r2 => (parseStringBody fuel r2).map (fun p => ('"' :: p.1, p.2))
      | '\\' :: r2 => (parseStringBody fuel r2).map (fun p => ('\\' :: p.1, p.2))
      | '/' :: r2 => (parseStringBody fuel r2).map (fun p => ('/' :: p.1, p.2))
      | 'b' :: r2 => (parseStringBody fuel r2).map (fun p => ('\x08' :: p.1, p.2))
      | 'f' :: r2 => (parseStringBody fuel r2).map (fun p => ('\x0c' :: p.1, p.2))
      | 'n' :: r2 => (parseStringBody fuel r2).map (fun p => ('\n' :: p.1, p.2))
      | 'r' :: r2 => (parseStringBody fuel r2).map (fun p => ('\r' :: p.1, p.2))
      | 't' :: r2 => (parseStringBody fuel r2).map (fun p => ('\t' :: p.1, p.2))
      | _ => none
    else if c.toNat < 0x20 then none
    else (parseStringBody fuel r).map (fun p => (c :: p.1, p.2))

mutual

/-- Recursive-descent value parser (fuelled; each call site below passes
enough fuel that exhaustion never occurs on the actual argument). -/
def parseValue : Nat → List Char → Option (JsonVal × List Char)
  | 0, _ => none
  | fuel + 1, s =>
    match skipWs s with
    | [] => none
    | c :: r =>
      if c = '\x7b' then
        match skipWs r with
        | [] => none
        | c2 :: r2 =>
          if c2 = '\x7d' then some (.obj [], r2) else parseObjRest fuel (c2 :: r2) []
      else if c = '[' then
        match skipWs r with
        | [] => none
        | c2 :: r2 =>
          if c2 = ']' then some (.arr [], r2) else parseArrRest fuel (c2 :: r2) []
      else if c = '"' then (parseStringBody (r.length + 1) r).map (fun p => (.str p.1, p.2))
      else if c = 't' then
        if ['r', 'u', 'e'].isPrefixOf r then some (.bool true, r.drop 3) else none
      else if c = 'f' then
        if ['a', 'l', 's', 'e'].isPrefixOf r then some (.bool false, r.drop 4) else none
      else if c = 'n' then
        if ['u', 'l', 'l'].isPrefixOf r then some (.null, r.drop 3) else none
      else if c = '-' || isDigitC c then parseNumber (c :: r)
      else none

/-- Members of a non-empty object: `"key" : value` then `,` or `}`. -/
def parseObjRest : Nat → List Char → List (List Char × JsonVal) →
    Option (JsonVal × List Char)
  | 0, _, _ => none
  | fuel + 1, s, acc =>
    match skipWs s with
    | [] => none
    | c :: r =>
      if c = '"' then
        match parseStringBody (r.length + 1) r with
        | none => none
        | some (k, r1) =>
          match skipWs r1 with
          | [] => none
          | c2 :: r2 =>
            if c2 = ':' then
              match parseValue fuel r2 with
              | none => none
              | some (v, r3) =>
                match skipWs r3 with
                | [] => none
                | c3 :: r4 =>
                  if c3 = ',' then parseObjRest fuel r4 (insertKV k v acc)
                  else if c3 = '\x7d' then some (.obj (insertKV k v acc), r4)
                  else none
            else none
      else none

/-- Elements of a non-empty array: `value` then `,` or `]`. -/
def parseArrRest : Nat → List Char → List JsonVal → Option (JsonVal × List Char)
  | 0, _, _ => none
  | fuel + 1, s, acc =>
    match parseValue fuel s with
    | none => none
    | some (v, r) =>
      match skipWs r with
      | [] => none
      | c :: r2 =>
        if c = ',' then parseArrRest fuel r2 (acc ++ [v])
        else if c = ']' then some (.arr (acc ++ [v]), r2)
        else none

end

/-- `nlohmann::json::parse`: skip a BOM, parse one value, allow trailing
whitespace only.  The fuel bound suffices: between two fuel decrements at
least one input character is consumed (at worst every second decrement,
for array elements), so `4 * length + 8` can never run out. -/
def bomStrip (s : List Char) : List Char :=
  if s.headD ' ' = Char.ofNat 0xfeff then s.tail else s

def parseJson (s : List Char) : Option JsonVal :=
  match parseValue (4 * (bomStrip s).length + 8) (bomStrip s) with
  | some (v, rest) => if skipWs rest = [] then some v else none
  | none => none

/-- Keys strictly ascending in the lexicographic order, the `std::map`
invariant. -/
def KeysSorted (fs : List (List Char × JsonVal)) : Prop :=
  List.Pairwise (fun a b => a.1 < b.1) fs

mutual

/-- Every object anywhere inside the value has sorted keys. -/
def ObjsSorted : JsonVal → Prop
  | .arr es => ObjsSortedL es
  | .obj fs => KeysSorted fs ∧ ObjsSortedKV fs
  | _ => True

def ObjsSortedL : List JsonVal → Prop
  | [] => True
  | e :: es => ObjsSorted e ∧ ObjsSortedL es

def ObjsSortedKV : List (List Char × JsonVal) → Prop
  | [] => True
  | kv :: t => ObjsSorted kv.2 ∧ ObjsSortedKV t

end

/-! ### Serialization: `dump(indent)` -/

def spaces (n : Nat) : List Char := List.replicate n ' '

def hexDigitL (n : Nat) : Char :=
  Char.ofNat (if n < 10 then 48 + n else 87 + n)

/-- `dump_escaped` with `ensure_ascii = false`: escape quote, backslash,
the five short controls, and remaining control characters as `\u00xx`. -/
def escapeJsonChar (c : Char) : List Char :=
  if c = '"' then ['\\', '"']
  else if c = '\\' then ['\\', '\\']
  else if c = '\x08' then ['\\', 'b']
  else if c = '\x0c' then ['\\', 'f']
  else if c = '\n' then ['\\', 'n']
  else if c = '\r' then ['\\', 'r']
  else if c = '\t' then ['\\', 't']
  else if c.toNat < 0x20 then
    ['\\', 'u', '0', '0', hexDigitL (c.toNat / 16), hexDigitL (c.toNat % 16)]
  else [c]

def escapeJson (l : List Char) : List Char := l.foldr (fun c acc => escapeJsonChar c ++ acc) []

mutual

/-- Pretty serializer of nlohmann `dump(ind)` at current indent `ci`.
`numFloat` prints its raw token as a stand-in for the library's
shortest-round-trip double output, which is outside the model; theorems
that depend on number serialization exclude `numFloat`. -/
def dumpVal (ind ci : Nat) : JsonVal → List Char
  | .null => "null".data
  | .bool true => "true".data
  | .bool false => "false".data
  | .numInt n => (toString n).data
  | .numFloat tok => tok
  | .str cs => '"' :: (escapeJson cs ++ ['"'])
  | .arr [] => ['[', ']']
  | .arr (e :: es) =>
    '[' :: '\n' :: (dumpElems ind (ci + ind) (e :: es) ++ '\n' :: (spaces ci ++ [']']))
  | .obj [] => ['\x7b', '\x7d']
  | .obj (f :: fs) =>
    '\x7b' :: '\n' :: (dumpFields ind (ci + ind) (f :: fs) ++ '\n' :: (spaces ci ++ ['\x7d']))

def dumpElems (ind ci : Nat) : List JsonVal → List Char
  | [] => []
  | [e] => spaces ci ++ dumpVal ind ci e
  | e :: e2 :: es =>
    spaces ci ++ (dumpVal ind ci e ++ ',' :: '\n' :: dumpElems ind ci (e2 :: es))

def dumpFields (ind ci : Nat) : List (List Char × JsonVal) → List Char
  | [] => []
  | [(k, v)] =>
    spaces ci ++ ('"' :: (escapeJson k ++ '"' :: ':' :: ' ' :: dumpVal ind ci v))
  | (k, v) :: f2 :: fs =>
    spaces ci ++ ('"' :: (escapeJson k ++ '"' :: ':' :: ' ' :: dumpVal ind ci v))
      ++ ',' :: '\n' :: dumpFields ind ci (f2 :: fs)

end

/-- `format_json` of `eo.cpp`: `dump(4)` on success; on failure the
`Error: Invalid JSON ─ ` diagnostic followed by `e.what()` (the library's
message text is not modelled; only the specified prefix matters). -/
def format_json (s : List Char) : List Char :=
  match parseJson s with
  | some j => dumpVal 4 0 j
  | none => "Error: Invalid JSON ─ ".data ++ "[json.exception.parse_error]".data

/-- `format_json` of the `p0` revision: `indent = terminal_width < 100 ? 2
: 4`, then `dump(indent)`; same diagnostic on failure.  (The default
terminal width is 80 when the size ioctl fails, so the narrow indent 2 is
the common piped case.) -/
def format_json_p0 (terminal_width : Nat) (s : List Char) : List Char :=
  match parseJson s with
  | some j => dumpVal (if terminal_width < 100 then 2 else 4) 0 j
  | none => "Error: Invalid JSON ─ ".data ++ "[json.exception.parse_error]".data

mutual

/-- No `numFloat` anywhere inside the value.  Only on such values is
`dumpVal` a faithful model of nlohmann's `dump`: the library serializes
non-integer numbers from their IEEE-double representation (shortest
round-trip output), which `dumpVal`'s raw-token stand-in does not model. -/
def floatFree : JsonVal → Bool
  | .numFloat _ => false
  | .arr es => floatFreeL es
  | .obj fs => floatFreeKV fs
  | _ => true

def floatFreeL : List JsonVal → Bool
  | [] => true
  | e :: es => floatFree e && floatFreeL es

def floatFreeKV : List (List Char × JsonVal) → Bool
  | [] => true
  | kv :: t => floatFree kv.2 && floatFreeKV t

end

/-! ### Format detection -/

inductive Format where
  | JSON : Format
  | TABLE : Format
  | PLAIN_TEXT : Format
deriving DecidableEq

/-- Split at newlines; `[] => [[]]` so that `splitNl` always returns one
piece more than the number of newlines. -/
def splitNl : List Char → List (List Char)
  | [] => [[]]
  | '\n' :: t => [] :: splitNl t
  | c :: t =>
    match splitNl t with
    | [] => [[c]]
    | h :: r => (c :: h) :: r

/-- `std::getline` over a whole buffer: no line for empty input, and a
trailing newline does not produce a final empty line. -/
def linesOf (s : List Char) : List (List Char) :=
  if s = [] then []
  else if s.getLast? = some '\n' then (splitNl s).dropLast
  else splitNl s

/-- `operator>>` whitespace (`isspace` in the C locale). -/
def isStreamWs (c : Char) : Bool :=
  c = ' ' || c = '\t' || c = '\n' || c = '\x0b' || c = '\x0c' || c = '\r'

def fieldsGo : Nat → List Char → List (List Char)
  | 0, _ => []
  | fuel + 1, l =>
    match l.dropWhile isStreamWs with
    | [] => []
    | c :: r =>
      ((c :: r).takeWhile (fun x => !isStreamWs x)) ::
        fieldsGo fuel ((c :: r).dropWhile (fun x => !isStreamWs x))

/-- Fields of one line: maximal whitespace-free runs (`while (ls >> field)`). -/
def fieldsOf (l : List Char) : List (List Char) := fieldsGo (l.length + 1) l

def fieldCounts (s : List Char) : List Nat :=
  (linesOf s).map (fun l => (fieldsOf l).length)

/-- The rectangularity check shared by both revisions: every line has the
first line's field count, more than one line, more than one column. -/
def rectTableCheck (s : List Char) : Format :=
  if (∀ n ∈ fieldCounts s, n = (fieldCounts s).headD 0) ∧ 1 < (fieldCounts s).length ∧
      1 < (fieldCounts s).headD 0 then .TABLE
  else .PLAIN_TEXT

/-- The nvme-smart-log shortcut of `eo.cpp` plus the general table check. -/
def tableDetect_eo (s : List Char) : Format :=
  if containsSeq "Metric".data ((linesOf s).headD []) &&
      containsSeq "Value".data ((linesOf s).headD []) then .TABLE
  else rectTableCheck s

/-- `detect_format` of `eo.cpp`: the JSON attempt is guarded by the first
byte being `{` or `[`; a parse failure falls through to the table checks. -/
def detect_format_eo (s : List Char) : Format :=
  if s = [] then .PLAIN_TEXT
  else if (s.headD ' ' = '\x7b' || s.headD ' ' = '[') && (parseJson s).isSome then .JSON
  else tableDetect_eo s

/-- `detect_format` of the `p0` revision: unguarded parse, JSON only for a
top-level object or array, fall-through otherwise. -/
def detect_format_p0 (s : List Char) : Format :=
  if s = [] then .PLAIN_TEXT
  else
    match parseJson s with
    | some j => if j.isObjOrArr then .JSON else rectTableCheck s
    | none => rectTableCheck s

/-! ### `format_table` of `eo.cpp` -/

/-- Row parsing of `format_table`: each line is normalized by
`regex_replace(line, "\s+", " ")` and split at spaces dropping empty
fields — i.e. split at whitespace runs, exactly `fieldsOf`; empty rows are
dropped. -/
def tableRows (s : List Char) : List (List (List Char)) :=
  ((linesOf s).map fieldsOf).filter (fun r => !r.isEmpty)

/-- `col_widths[j]` as the C++ loop computes it for the columns that
exist: maximum field width over the rows that have a `j`-th field. -/
def colWidth (rows : List (List (List Char))) (j : Nat) : Nat :=
  rows.foldl (fun acc r =>
    match r.get? j with
    | some cell => max acc cell.length
    | none => acc) 0

def padTo (cell : List Char) (w : Nat) : List Char :=
  cell ++ List.replicate (w + 2 - cell.length) ' '

def renderRow (rows : List (List (List Char))) (r : List (List Char)) : List Char :=
  (r.enum.map (fun p => padTo p.2 (colWidth rows p.1))).flatten

/-- `format_table` of `eo.cpp`.  The buffer `col_widths` has exactly
`rows[0].size()` entries but the width loop writes `col_widths[i]` for
every field index `i` of every row: a row longer than the first row makes
the program index the vector out of bounds (undefined behavior), modelled
as `none`. -/
def format_table (s : List Char) : Option (List Char) :=
  let rows := tableRows s
  if rows = [] then some []
  else if ∀ r ∈ rows, r.length ≤ (rows.headD []).length then
    some ((rows.map (fun r => renderRow rows r ++ ['\n'])).flatten)
  else none

/-! ### Object lookup and the `main` control flow of `eo.cpp` -/

/-- `json.contains(key)` / `json[key]` read: only objects hold members. -/
def objGet : JsonVal → List Char → Option JsonVal
  | .obj fs, k => (fs.find? (fun kv => kv.1 = k)).map (fun kv => kv.2)
  | _, _ => none

/-- `check_service`: the `GET /api/tags` oracle is `none` when the service
is unreachable, otherwise `some (status, body)`; success requires status
200 and a parsable body. -/
def check_service (listing : Option (Nat × List Char)) : Option JsonVal :=
  match listing with
  | none => none
  | some (st, body) => if st = 200 then parseJson body else none

/-- nlohmann's `size()`: 0 for null, the element count for arrays and
objects, 1 for every other scalar. -/
def jsonSize : JsonVal → Nat
  | .null => 0
  | .arr es => es.length
  | .obj fs => fs.length
  | _ => 1

/-- Line 174 of `eo.cpp`, which runs outside the `try` block:
`models["models"].size() > 0 ? models["models"][0]["name"].get<std::string>()
: "llama3:8b-instruct-q4_0"`.  On the `const` listing value, `operator[]`
with a key asserts that the value is an object holding that key, and
`operator[]` with an index asserts that the value is an array, so a
non-conforming listing aborts the process; `.get<std::string>()` on a
non-string throws a `type_error` that no handler catches, which also
terminates the process.  `none` models every one of these aborts;
`some name` is the surviving model name. -/
def selectModelName (models : JsonVal) : Option (List Char) :=
  match objGet models "models".data with
  | none => none
  | some ms =>
    if jsonSize ms = 0 then some "llama3:8b-instruct-q4_0".data
    else
      match ms with
      | .arr (e :: _) =>
        match objGet e "name".data with
        | some (.str nm) => some nm
        | _ => none
      | _ => none

/-- `enhance_with_ai` of `eo.cpp` with the `POST /api/generate` response as
an oracle.  The model-name selection at line 174 runs first and can abort
the whole process (`none`); otherwise the chosen name only influences the
oracle and the function returns the response text or an error string. -/
def enhance_with_ai (models : JsonVal) (genRes : Option (Nat × List Char))
    (useColors : Bool) : Option (List Char) :=
  match selectModelName models with
  | none => none
  | some _nm =>
    some (match genRes with
      | none => "Error: AI server issue".data
      | some (status, body) =>
        if status ≠ 200 then "Error: AI server issue".data
        else
          match parseJson body with
          | none => "Error: Invalid AI response".data
          | some j =>
            match objGet j "response".data with
            | none => "Error: No 'response' in AI output".data
            | some (.str t) => sanitize_eo useColors t
            | some _ => "Error: Invalid AI response".data)

/-- Observable outcome of one run.  `exitCode = none` means the process
does not terminate normally: either the uncaught-exception / assertion
abort of `selectModelName`, or the `format_table` out-of-bounds undefined
behavior; in both cases `stdout` is unspecified (`none`). -/
structure MainOut where
  exitCode : Option Nat
  stdout : Option (List Char)
  stdinConsumed : Bool
deriving DecidableEq

/-- `main` of `eo.cpp`: service check (exit 1 before reading stdin on
failure), empty-input notice, detection, local formatting, one generation
call (whose model selection may abort the process), combined output,
exit 0. -/
def main_eo (listing : Option (Nat × List Char)) (stdin_ : List Char)
    (genRes : Option (Nat × List Char)) (useColors : Bool) : MainOut :=
  match check_service listing with
  | none => ⟨some 1, some [], false⟩
  | some models =>
    if stdin_ = [] then ⟨some 0, some ("No input provided.\n".data), true⟩
    else
      match detect_format_eo stdin_ with
      | .JSON =>
        match enhance_with_ai models genRes useColors with
        | none => ⟨none, none, true⟩
        | some ai =>
          ⟨some 0, some (format_json stdin_ ++ '\n' :: '\n' :: (ai ++ ['\n'])), true⟩
      | .TABLE =>
        match format_table stdin_ with
        | none => ⟨none, none, true⟩
        | some t =>
          match enhance_with_ai models genRes useColors with
          | none => ⟨none, none, true⟩
          | some ai => ⟨some 0, some (t ++ '\n' :: '\n' :: (ai ++ ['\n'])), true⟩
      | .PLAIN_TEXT =>
        match enhance_with_ai models genRes useColors with
        | none => ⟨none, none, true⟩
        | some ai => ⟨some 0, some (ai ++ ['\n']), true⟩

/-! ## Theorems

### Generic lemmas about the replacement scanner -/

theorem prefOfP {l₁ l₂ : List Char} (h : l₁.isPrefixOf l₂ = true) : l₁ <+: l₂ :=
  List.isPrefixOf_iff_prefix.mp h

theorem prefOfI {l₁ l₂ : List Char} (h : l₁ <+: l₂) : l₁.isPrefixOf l₂ = true :=
  List.isPrefixOf_iff_prefix.mpr h

theorem prefWithin {l₁ l₂ : List Char} (h : l₁ <+: l₂) : l₁ <:+: l₂ :=
  List.IsPrefix.isInfix h

theorem sufWithin {l₁ l₂ : List Char} (h : l₁ <:+ l₂) : l₁ <:+: l₂ :=
  List.IsSuffix.isInfix h

theorem scan_eq_self_of_no_match (m : List Char → Option (List Char × Nat)) :
    ∀ (fuel : Nat) (s : List Char), (∀ t, t <:+ s → m t = none) → scan m fuel s = s := by
  intro fuel
  induction fuel with
  | zero => intro s _; rfl
  | succ f ih =>
    intro s h
    match s with
    | [] => rfl
    | c :: rest =>
      have hm : m (c :: rest) = none := h _ (List.suffix_refl _)
      simp only [scan, hm]
      exact congrArg (c :: ·)
        (ih rest (fun t ht => h t (ht.trans (List.suffix_cons c rest))))

theorem scan_fuel_eq (m : List Char → Option (List Char × Nat))
    (Hk : ∀ t o k, m t = some (o, k) → 1 ≤ k) :
    ∀ (fuel : Nat) (s : List Char), s.length ≤ fuel → scan m fuel s = scan m s.length s := by
  intro fuel
  induction fuel using Nat.strong_induction_on with
  | _ fuel ih =>
    intro s hs
    rcases s with _ | ⟨c, rest⟩
    · cases fuel with
      | zero => rfl
      | succ f => simp [scan]
    · simp only [List.length_cons] at hs
      obtain ⟨f, rfl⟩ : ∃ f, fuel = f + 1 := ⟨fuel - 1, by omega⟩
      cases hm : m (c :: rest) with
      | none =>
        simp only [scan, hm, List.length_cons]
        have h1 : scan m f rest = scan m rest.length rest :=
          ih f (by omega) rest (by omega)
        rw [h1]
      | some p =>
        obtain ⟨o, k⟩ := p
        have hk : 1 ≤ k := Hk _ _ _ hm
        simp only [scan, hm, List.length_cons]
        have hd : (List.drop k (c :: rest)).length ≤ rest.length := by
          simp only [List.length_drop, List.length_cons]; omega
        have h1 : scan m f (List.drop k (c :: rest)) =
            scan m (List.drop k (c :: rest)).length (List.drop k (c :: rest)) :=
          ih f (by omega) _ (by omega)
        have h2 : scan m rest.length (List.drop k (c :: rest)) =
            scan m (List.drop k (c :: rest)).length (List.drop k (c :: rest)) :=
          ih rest.length (by omega) _ hd
        rw [h1, h2]

theorem passOf_eq_self (m : List Char → Option (List Char × Nat)) (s : List Char)
    (h : ∀ t, t <:+ s → m t = none) : passOf m s = s :=
  scan_eq_self_of_no_match m _ s h

theorem passOf_cons (m : List Char → Option (List Char × Nat)) (c : Char) (rest : List Char)
    (hm : m (c :: rest) = none) : passOf m (c :: rest) = c :: passOf m rest := by
  unfold passOf
  simp only [List.length_cons, scan, hm]

theorem passOf_match (m : List Char → Option (List Char × Nat))
    (Hk : ∀ t o k, m t = some (o, k) → 1 ≤ k) (c : Char) (rest o : List Char) (k : Nat)
    (hm : m (c :: rest) = some (o, k)) :
    passOf m (c :: rest) = o ++ passOf m (List.drop k (c :: rest)) := by
  unfold passOf
  simp only [List.length_cons, scan, hm]
  have hk : 1 ≤ k := Hk _ _ _ hm
  have hd : (List.drop k (c :: rest)).length ≤ rest.length := by
    simp only [List.length_drop, List.length_cons]; omega
  rw [scan_fuel_eq m Hk (rest.length + 1) _ (by omega),
    scan_fuel_eq m Hk ((List.drop k (c :: rest)).length + 1) _ (by omega)]

theorem passOf_append_headFree (m : List Char → Option (List Char × Nat))
    (P : Char → Prop) (hm : ∀ c t, P c → m (c :: t) = none) :
    ∀ (a s : List Char), (∀ x ∈ a, P x) → passOf m (a ++ s) = a ++ passOf m s := by
  intro a
  induction a with
  | nil => intro s _; rfl
  | cons c a' ih =>
    intro s ha
    have h1 : m (c :: (a' ++ s)) = none := hm c _ (ha c (by simp))
    calc passOf m ((c :: a') ++ s) = passOf m (c :: (a' ++ s)) := by simp
      _ = c :: passOf m (a' ++ s) := passOf_cons m c _ h1
      _ = c :: (a' ++ passOf m s) := by rw [ih s (fun x hx => ha x (by simp [hx]))]
      _ = (c :: a') ++ passOf m s := rfl

theorem scan_length_le (m : List Char → Option (List Char × Nat))
    (H : ∀ t o k, m t = some (o, k) → o.length ≤ k ∧ k ≤ t.length) :
    ∀ (fuel : Nat) (s : List Char), (scan m fuel s).length ≤ s.length := by
  intro fuel
  induction fuel with
  | zero => intro s; exact Nat.le_refl _
  | succ f ih =>
    intro s
    rcases s with _ | ⟨c, rest⟩
    · simp [scan]
    · cases hm : m (c :: rest) with
      | none =>
        simp only [scan, hm, List.length_cons]
        exact Nat.succ_le_succ (ih rest)
      | some p =>
        obtain ⟨o, k⟩ := p
        obtain ⟨h1, h2⟩ := H _ _ _ hm
        simp only [scan, hm, List.length_append, List.length_cons]
        have h3 := ih (List.drop k (c :: rest))
        have h4 : (List.drop k (c :: rest)).length = rest.length + 1 - k := by
          simp [List.length_drop]
        simp only [List.length_cons] at h2
        omega

/-- A matcher whose every match contains the pattern `p` never fires on any
suffix of a `p`-free subject. -/
theorem no_match_of_pat (m : List Char → Option (List Char × Nat)) (p : List Char)
    (hp : ∀ t o k, m t = some (o, k) → p <:+: t) (s : List Char) (hs : ¬ p <:+: s) :
    ∀ t, t <:+ s → m t = none := by
  intro t ht
  cases hm : m t with
  | none => rfl
  | some q =>
    obtain ⟨o, k⟩ := q
    exact absurd ((hp t o k hm).trans (sufWithin ht)) hs

/-- A matcher whose every match contains the character `ch` never fires on
any suffix of a `ch`-free subject. -/
theorem no_match_of_mem (m : List Char → Option (List Char × Nat)) (ch : Char)
    (hc : ∀ t o k, m t = some (o, k) → ch ∈ t) (s : List Char) (hs : ch ∉ s) :
    ∀ t, t <:+ s → m t = none := by
  intro t ht
  cases hm : m t with
  | none => rfl
  | some q =>
    obtain ⟨o, k⟩ := q
    exact absurd (ht.subset (hc t o k hm)) hs

/-! ### Per-matcher facts: consumption bounds and trigger patterns -/

theorem escM_spec : ∀ t o k, escM t = some (o, k) →
    1 ≤ k ∧ k ≤ t.length ∧ o.length ≤ k := by
  intro t o k h
  simp only [escM] at h
  repeat' split at h
  all_goals simp only [Option.some.injEq, Prod.mk.injEq, reduceCtorEq] at h
  all_goals obtain ⟨rfl, rfl⟩ := h
  all_goals rename_i hp
  all_goals have hl := (prefOfP hp).length_le
  all_goals simp only [List.length_cons, List.length_nil] at hl ⊢
  all_goals omega

theorem escM_mem : ∀ t o k, escM t = some (o, k) → '\\' ∈ t := by
  intro t o k h
  simp only [escM] at h
  repeat' split at h
  all_goals simp only [Option.some.injEq, Prod.mk.injEq, reduceCtorEq] at h
  all_goals rename_i hp
  all_goals obtain ⟨u, hu⟩ := prefOfP hp
  all_goals rw [← hu]
  all_goals simp

theorem noteM_pos : ∀ t o k, noteM t = some (o, k) → 1 ≤ k := by
  intro t o k h
  simp only [noteM] at h
  split at h
  · simp only [Option.some.injEq, Prod.mk.injEq] at h
    omega
  · exact absurd h (by simp)

theorem noteM_trig : ∀ t o k, noteM t = some (o, k) → "Note:".data <:+: t := by
  intro t o k h
  simp only [noteM] at h
  split at h
  · next hpre =>
    exact (prefWithin (prefOfP hpre)).trans (sufWithin (List.drop_suffix _ _))
  · exact absurd h (by simp)

theorem boldM_pos (uc : Bool) : ∀ t o k, boldM uc t = some (o, k) → 1 ≤ k := by
  intro t o k h
  simp only [boldM] at h
  split at h
  · split at h
    · simp only [Option.some.injEq, Prod.mk.injEq] at h
      obtain ⟨-, hk⟩ := h
      omega
    · exact absurd h (by simp)
  · exact absurd h (by simp)

theorem boldM_trig (uc : Bool) : ∀ t o k, boldM uc t = some (o, k) →
    ['*', '*'] <:+: t := by
  intro t o k h
  simp only [boldM] at h
  split at h
  · next hp =>
    exact prefWithin (prefOfP hp)
  · exact absurd h (by simp)

theorem colorM_pos (name code : List Char) (uc : Bool) :
    ∀ t o k, colorM name code uc t = some (o, k) → 1 ≤ k := by
  intro t o k h
  simp only [colorM] at h
  split at h
  · split at h
    · simp only [Option.some.injEq, Prod.mk.injEq] at h
      simp only [List.length_append] at h
      omega
    · exact absurd h (by simp)
  · exact absurd h (by simp)

theorem colorM_trig (name code : List Char) (uc : Bool) :
    ∀ t o k, colorM name code uc t = some (o, k) → ['*', '*'] <:+: t := by
  intro t o k h
  simp only [colorM] at h
  split at h
  · next hpre =>
    have h1 : (name ++ "[**".data) <+: t := prefOfP hpre
    have h2 : ['*', '*'] <:+ (name ++ "[**".data) := ⟨name ++ ['['], by simp⟩
    exact (sufWithin h2).trans (prefWithin h1)
  · exact absurd h (by simp)

theorem tb1M_pos : ∀ t o k, tb1M t = some (o, k) → 1 ≤ k := by
  intro t o k h
  simp only [tb1M] at h
  split at h
  · split at h
    · simp only [Option.some.injEq, Prod.mk.injEq] at h
      obtain ⟨-, hk⟩ := h
      omega
    · exact absurd h (by simp)
  · exact absurd h (by simp)

theorem tb1M_mem : ∀ t o k, tb1M t = some (o, k) → '|' ∈ t := by
  intro t o k h
  simp only [tb1M] at h
  split at h
  · next hp =>
    obtain ⟨u, hu⟩ := prefOfP hp
    rw [← hu]; simp
  · exact absurd h (by simp)

theorem tb2M_pos : ∀ t o k, tb2M t = some (o, k) → 1 ≤ k := by
  intro t o k h
  simp only [tb2M] at h
  repeat' split at h
  all_goals simp only [Option.some.injEq, Prod.mk.injEq, reduceCtorEq] at h
  obtain ⟨-, hk⟩ := h
  omega

theorem tb2M_mem : ∀ t o k, tb2M t = some (o, k) → '|' ∈ t := by
  intro t o k h
  simp only [tb2M] at h
  repeat' split at h
  all_goals simp only [Option.some.injEq, Prod.mk.injEq, reduceCtorEq] at h
  rename_i hp _ _ _
  obtain ⟨u, hu⟩ := prefOfP hp
  rw [← hu]; simp

theorem trsM_pos : ∀ t o k, trsM t = some (o, k) → 1 ≤ k := by
  intro t o k h
  simp only [trsM] at h
  split at h
  · simp only [Option.some.injEq, Prod.mk.injEq] at h
    omega
  · exact absurd h (by simp)

theorem trsM_mem : ∀ t o k, trsM t = some (o, k) → '|' ∈ t := by
  intro t o k h
  simp only [trsM] at h
  split at h
  · next hpre =>
    obtain ⟨u, hu⟩ := prefOfP hpre
    rw [← hu]; simp
  · exact absurd h (by simp)

theorem treM_pos : ∀ t o k, treM t = some (o, k) → 1 ≤ k := by
  intro t o k h
  simp only [treM] at h
  split at h
  · simp only [Option.some.injEq, Prod.mk.injEq] at h
    omega
  · exact absurd h (by simp)

theorem treM_mem : ∀ t o k, treM t = some (o, k) → '|' ∈ t := by
  intro t o k h
  simp only [treM] at h
  split at h
  · next hpre =>
    obtain ⟨u, hu⟩ := prefOfP hpre
    rw [← hu]; simp
  · exact absurd h (by simp)

theorem tcdM_pos : ∀ t o k, tcdM t = some (o, k) → 1 ≤ k := by
  intro t o k h
  simp only [tcdM] at h
  split at h
  · simp only [Option.some.injEq, Prod.mk.injEq] at h
    omega
  · exact absurd h (by simp)

theorem tcdM_mem : ∀ t o k, tcdM t = some (o, k) → '|' ∈ t := by
  intro t o k h
  simp only [tcdM] at h
  split at h
  · next hpre =>
    obtain ⟨u, hu⟩ := prefOfP hpre
    rw [← hu]; simp
  · exact absurd h (by simp)

theorem thinkM_pos : ∀ t o k, thinkM t = some (o, k) → 1 ≤ k := by
  intro t o k h
  simp only [thinkM] at h
  split at h
  · split at h
    · simp only [Option.some.injEq, Prod.mk.injEq] at h
      omega
    · exact absurd h (by simp)
  · exact absurd h (by simp)

theorem thinkM_trig : ∀ t o k, thinkM t = some (o, k) → "<think>".data <:+: t := by
  intro t o k h
  simp only [thinkM] at h
  split at h
  · next hpre =>
    exact prefWithin (prefOfP hpre)
  · exact absurd h (by simp)

theorem fence1M_pos : ∀ t o k, fence1M t = some (o, k) → 1 ≤ k := by
  intro t o k h
  simp only [fence1M] at h
  split at h
  · split at h
    · simp only [Option.some.injEq, Prod.mk.injEq] at h
      omega
    · exact absurd h (by simp)
  · exact absurd h (by simp)

theorem fence1M_mem : ∀ t o k, fence1M t = some (o, k) → '`' ∈ t := by
  intro t o k h
  simp only [fence1M] at h
  split at h
  · next hpre =>
    obtain ⟨u, hu⟩ := prefOfP hpre
    rw [← hu]; simp
  · exact absurd h (by simp)

theorem fence2M_pos : ∀ t o k, fence2M t = some (o, k) → 1 ≤ k := by
  intro t o k h
  simp only [fence2M] at h
  split at h
  · simp only [Option.some.injEq, Prod.mk.injEq] at h
    omega
  · split at h
    · simp only [Option.some.injEq, Prod.mk.injEq] at h
      omega
    · exact absurd h (by simp)

theorem fence2M_mem : ∀ t o k, fence2M t = some (o, k) → '`' ∈ t := by
  intro t o k h
  simp only [fence2M] at h
  split at h
  · next hpre =>
    obtain ⟨u, hu⟩ := prefOfP hpre
    rw [← hu]; simp
  · split at h
    · next hpre =>
      obtain ⟨u, hu⟩ := prefOfP hpre
      rw [← hu]; simp
    · exact absurd h (by simp)

/-! ### Identity of each pass on trigger-free input -/

theorem unescape_id (s : List Char) (h : '\\' ∉ s) : unescape_string s = s :=
  passOf_eq_self _ _ (no_match_of_mem _ _ escM_mem s h)

theorem notePass_id (s : List Char) (h : ¬ "Note:".data <:+: s) : notePass s = s :=
  passOf_eq_self _ _ (no_match_of_pat _ _ noteM_trig s h)

theorem boldPass_id (uc : Bool) (s : List Char) (h : ¬ ['*', '*'] <:+: s) :
    boldPass uc s = s :=
  passOf_eq_self _ _ (no_match_of_pat _ _ (boldM_trig uc) s h)

theorem colorPass_id (uc : Bool) (s : List Char) (h : ¬ ['*', '*'] <:+: s) :
    colorPass uc s = s := by
  unfold colorPass
  rw [passOf_eq_self _ _ (no_match_of_pat _ _ (colorM_trig "blue".data _ uc) s h),
    passOf_eq_self _ _ (no_match_of_pat _ _ (colorM_trig "green".data _ uc) s h),
    passOf_eq_self _ _ (no_match_of_pat _ _ (colorM_trig "red".data _ uc) s h),
    passOf_eq_self _ _ (no_match_of_pat _ _ (colorM_trig "yellow".data _ uc) s h)]

theorem tablePass_id (s : List Char) (h : '|' ∉ s) : tablePass s = s := by
  unfold tablePass
  rw [passOf_eq_self _ _ (no_match_of_mem _ _ tb1M_mem s h),
    passOf_eq_self _ _ (no_match_of_mem _ _ tb2M_mem s h),
    passOf_eq_self _ _ (no_match_of_mem _ _ trsM_mem s h),
    passOf_eq_self _ _ (no_match_of_mem _ _ treM_mem s h),
    passOf_eq_self _ _ (no_match_of_mem _ _ tcdM_mem s h)]

theorem thinkPass_id (s : List Char) (h : ¬ "<think>".data <:+: s) : thinkPass s = s :=
  passOf_eq_self _ _ (no_match_of_pat _ _ thinkM_trig s h)

theorem fencePass_id (s : List Char) (h : '`' ∉ s) : fencePass s = s := by
  unfold fencePass
  rw [passOf_eq_self _ _ (no_match_of_mem _ _ fence1M_mem s h),
    passOf_eq_self _ _ (no_match_of_mem _ _ fence2M_mem s h)]

theorem sanitize_eo_eq_self (uc : Bool) (s : List Char) (hbs : '\\' ∉ s)
    (hnote : ¬ "Note:".data <:+: s) (hstars : ¬ ['*', '*'] <:+: s) (hpipe : '|' ∉ s) :
    sanitize_eo uc s = s := by
  unfold sanitize_eo
  rw [unescape_id s hbs, notePass_id s hnote, boldPass_id uc s hstars,
    colorPass_id uc s hstars, tablePass_id s hpipe]

theorem sanitize_p0_eq_trim (s : List Char) (hthink : ¬ "<think>".data <:+: s)
    (hbs : '\\' ∉ s) (hnote : ¬ "Note:".data <:+: s) (hbt : '`' ∉ s)
    (hstars : ¬ ['*', '*'] <:+: s) (hpipe : '|' ∉ s) : sanitize_p0 s = trimWS s := by
  unfold sanitize_p0
  rw [thinkPass_id s hthink, unescape_id s hbs, notePass_id s hnote, fencePass_id s hbt,
    boldPass_id true s hstars, tablePass_id s hpipe]

/-! ### Trim lemmas -/

theorem dropWhile_of_prefix_of_dropWhile (p : Char → Bool) :
    ∀ (l b : List Char), b <+: l.dropWhile p → b.dropWhile p = b := by
  intro l
  induction l with
  | nil =>
    intro b hb
    simp only [List.dropWhile_nil, List.prefix_nil] at hb
    subst hb
    rfl
  | cons c t ih =>
    intro b hb
    rw [List.dropWhile_cons] at hb
    by_cases hc : p c
    · rw [if_pos hc] at hb
      exact ih b hb
    · rw [if_neg hc] at hb
      rcases b with _ | ⟨b0, b'⟩
      · rfl
      · obtain ⟨u, hu⟩ := hb
        have hb0 : b0 = c := by
          have := congrArg (fun l => l.headD ' ') hu
          simpa using this
        subst hb0
        rw [List.dropWhile_cons, if_neg hc]

theorem trimWS_idem (s : List Char) : trimWS (trimWS s) = trimWS s := by
  unfold trimWS
  have h2 : (s.dropWhile isTrimWs).reverse.dropWhile isTrimWs <:+
      (s.dropWhile isTrimWs).reverse := List.dropWhile_suffix _
  have h1 : ((s.dropWhile isTrimWs).reverse.dropWhile isTrimWs).reverse <+:
      s.dropWhile isTrimWs := by
    obtain ⟨pre, hpre⟩ := h2
    refine ⟨pre.reverse, ?_⟩
    have := congrArg List.reverse hpre
    simpa using this
  rw [dropWhile_of_prefix_of_dropWhile isTrimWs s _ h1, List.reverse_reverse,
    List.dropWhile_idempotent]

theorem trimWS_within (s : List Char) : trimWS s <:+: s := by
  have h2 : (s.dropWhile isTrimWs).reverse.dropWhile isTrimWs <:+
      (s.dropWhile isTrimWs).reverse := List.dropWhile_suffix _
  have h1 : trimWS s <+: s.dropWhile isTrimWs := by
    obtain ⟨pre, hpre⟩ := h2
    refine ⟨pre.reverse, ?_⟩
    have := congrArg List.reverse hpre
    simpa [trimWS] using this
  exact (prefWithin h1).trans (sufWithin (List.dropWhile_suffix _))

/-! ### Claim C8 -/

/-- C8: on an input free of all the sanitizer trigger patterns (think tags,
backslash escapes, `Note:` trailers, code fences, `**` markers — which also
covers `color[**...**]` markers — and pipe characters), applying either
sanitizer pipeline twice yields the same string as applying it once: the
`eo.cpp` pipeline is the identity there, and the `p0` pipeline reduces to
its final whitespace trim, which is idempotent. -/
theorem c8_sanitize_idempotent (uc : Bool) (s : List Char)
    (hthink : ¬ "<think>".data <:+: s) (hbs : '\\' ∉ s) (hnote : ¬ "Note:".data <:+: s)
    (hbt : '`' ∉ s) (hstars : ¬ ['*', '*'] <:+: s) (hpipe : '|' ∉ s) :
    sanitize_eo uc (sanitize_eo uc s) = sanitize_eo uc s ∧
    sanitize_p0 (sanitize_p0 s) = sanitize_p0 s := by
  have e1 : sanitize_eo uc s = s := sanitize_eo_eq_self uc s hbs hnote hstars hpipe
  have p1 : sanitize_p0 s = trimWS s := sanitize_p0_eq_trim s hthink hbs hnote hbt hstars hpipe
  have hinf := trimWS_within s
  constructor
  · rw [e1, e1]
  · rw [p1]
    have p2 : sanitize_p0 (trimWS s) = trimWS (trimWS s) :=
      sanitize_p0_eq_trim _ (fun hc => hthink (hc.trans hinf))
        (fun hc => hbs (hinf.subset hc)) (fun hc => hnote (hc.trans hinf))
        (fun hc => hbt (hinf.subset hc)) (fun hc => hstars (hc.trans hinf))
        (fun hc => hpipe (hinf.subset hc))
    rw [p2, trimWS_idem]

theorem c8_witness :
    sanitize_eo true (sanitize_eo true "ok: all clear\n".data) =
      sanitize_eo true "ok: all clear\n".data ∧
    sanitize_p0 (sanitize_p0 "ok: all clear\n".data) = sanitize_p0 "ok: all clear\n".data :=
  c8_sanitize_idempotent true "ok: all clear\n".data (by decide) (by decide) (by decide)
    (by decide) (by decide) (by decide)

/-! ### Claim C10 -/

/-- C10: `unescape_string` leaves any backslash-free string unchanged, and
its output is never longer than its input (every step of the loop emits
exactly one character while consuming at least one). -/
theorem c10_unescape :
    (∀ s : List Char, '\\' ∉ s → unescape_string s = s) ∧
    (∀ s : List Char, (unescape_string s).length ≤ s.length) := by
  constructor
  · exact fun s h => unescape_id s h
  · intro s
    exact scan_length_le escM
      (fun t o k hm => ⟨(escM_spec t o k hm).2.2, (escM_spec t o k hm).2.1⟩) _ s

theorem c10_witness :
    ('\\' ∉ "plain text".data ∧ unescape_string "plain text".data = "plain text".data) ∧
    (unescape_string "x\\ny\\033[0m".data).length ≤ "x\\ny\\033[0m".data.length :=
  ⟨⟨by decide, c10_unescape.1 "plain text".data (by decide)⟩,
    c10_unescape.2 "x\\ny\\033[0m".data⟩

/-! ### Claim C1 -/

/-- C1 (code bug): on the spec scenario input, with colors enabled, the
`eo.cpp` sanitizer turns both `**...**` groups into ANSI bold, but the
color pass runs after the bold pass and requires the literal
`red[**...**]`, which no longer exists — so `red[` and `]` survive around
an inner bold instead of the promised `ESC[31mESC[1malertESC[0m`.  The
code's own comments and its prompt text promise the color+bold rewrite, so
the pass ordering defeats the code's stated intent. -/
theorem c1_color_rewrite_lost :
    sanitize_eo true "**bold** and red[**alert**]".data =
      "\x1b[1mbold\x1b[0m and red[\x1b[1malert\x1b[0m]".data ∧
    sanitize_eo true "**bold** and red[**alert**]".data ≠
      "\x1b[1mbold\x1b[0m and \x1b[31m\x1b[1malert\x1b[0m".data := by
  constructor
  · decide
  · decide

/-! ### Claim C6: think-tag and fence stripping (`p0`) -/

theorem takeWhile_append_all (p : Char → Bool) :
    ∀ (c e : List Char), (∀ x ∈ c, p x = true) →
      (c ++ e).takeWhile p = c ++ e.takeWhile p := by
  intro c
  induction c with
  | nil => intro e _; rfl
  | cons x c' ih =>
    intro e hc
    simp only [List.cons_append, List.takeWhile_cons]
    rw [hc x (by simp), ih e (fun y hy => hc y (by simp [hy]))]
    rfl

theorem thinkM_none_of_head (c : Char) (t : List Char) (hc : c ≠ '<') :
    thinkM (c :: t) = none := by
  have hng : ¬ (("<think>".data).isPrefixOf (c :: t) = true) := by
    intro hp
    obtain ⟨u, hu⟩ := prefOfP hp
    have := congrArg (fun l => l.headD ' ') hu
    simp at this
    exact hc this.symm
  simp only [thinkM, hng]
  rfl

theorem fence1M_none_of_head (c : Char) (t : List Char) (hc : c ≠ '`') :
    fence1M (c :: t) = none := by
  have hng : ¬ ((['`', '`', '`'] : List Char).isPrefixOf (c :: t) = true) := by
    intro hp
    obtain ⟨u, hu⟩ := prefOfP hp
    have := congrArg (fun l => l.headD ' ') hu
    simp at this
    exact hc this.symm
  simp only [fence1M, hng]
  rfl

theorem thinkM_block (c b : List Char) (hc : ∀ x ∈ c, x ≠ '<') :
    thinkM ("<think>".data ++ c ++ "</think>".data ++ b) =
      some ([], 7 + c.length + 8) := by
  have hpre : ("<think>".data).isPrefixOf
      ("<think>".data ++ c ++ "</think>".data ++ b) = true := by
    apply prefOfI
    exact ⟨c ++ "</think>".data ++ b, by simp⟩
  simp only [thinkM, hpre, if_true]
  have hdrop7 : ("<think>".data ++ c ++ "</think>".data ++ b).drop 7 =
      c ++ ("</think>".data ++ b) := by
    have : ("<think>".data ++ c ++ "</think>".data ++ b) =
        "<think>".data ++ (c ++ ("</think>".data ++ b)) := by simp
    rw [this]
    have h7 : (7 : Nat) = ("<think>".data).length := by decide
    rw [h7, List.drop_left]
  rw [hdrop7]
  have htw : (c ++ ("</think>".data ++ b)).takeWhile (fun x => decide (x ≠ '<')) =
      c := by
    rw [takeWhile_append_all _ c _ (fun x hx => by simpa using hc x hx)]
    simp only [List.append_right_eq_self]
    rfl
  rw [htw]
  have hdc : (c ++ ("</think>".data ++ b)).drop c.length = "</think>".data ++ b :=
    List.drop_left c _
  rw [hdc]
  have hpre2 : ("</think>".data).isPrefixOf ("</think>".data ++ b) = true := by
    apply prefOfI
    exact ⟨b, rfl⟩
  simp only [hpre2, if_true]

theorem fence1M_block (body b : List Char) (hb : ∀ x ∈ body, x ≠ '`') :
    fence1M ("```".data ++ body ++ "```".data ++ b) =
      some ([], body.length + 6) := by
  have hpre : (['`', '`', '`'] : List Char).isPrefixOf
      ("```".data ++ body ++ "```".data ++ b) = true := by
    apply prefOfI
    exact ⟨body ++ "```".data ++ b, by simp⟩
  simp only [fence1M, hpre, if_true]
  have hdrop3 : ("```".data ++ body ++ "```".data ++ b).drop 3 =
      body ++ ("```".data ++ b) := by
    have : ("```".data ++ body ++ "```".data ++ b) =
        "```".data ++ (body ++ ("```".data ++ b)) := by simp
    rw [this]
    have h3 : (3 : Nat) = ("```".data).length := by decide
    rw [h3, List.drop_left]
  rw [hdrop3]
  have htw : (body ++ ("```".data ++ b)).takeWhile (fun x => decide (x ≠ '`')) =
      body := by
    rw [takeWhile_append_all _ body _ (fun x hx => by simpa using hb x hx)]
    simp only [List.append_right_eq_self]
    rfl
  rw [htw]
  have hdc : (body ++ ("```".data ++ b)).drop body.length = "```".data ++ b :=
    List.drop_left body _
  rw [hdc]
  have hpre2 : (['`', '`', '`'] : List Char).isPrefixOf ("```".data ++ b) = true := by
    apply prefOfI
    exact ⟨b, rfl⟩
  simp only [hpre2, if_true]

theorem thinkPass_block (a c b : List Char) (ha : ∀ x ∈ a, x ≠ '<')
    (hc : ∀ x ∈ c, x ≠ '<') :
    thinkPass (a ++ ("<think>".data ++ c ++ "</think>".data ++ b)) = a ++ thinkPass b := by
  unfold thinkPass
  rw [passOf_append_headFree thinkM (fun x => x ≠ '<')
    (fun ch t hch => thinkM_none_of_head ch t hch) a _ ha]
  congr 1
  have hm : thinkM ('<' :: ("think>".data ++ c ++ "</think>".data ++ b)) =
      some ([], 7 + c.length + 8) := thinkM_block c b hc
  have hstep := passOf_match thinkM thinkM_pos '<'
    ("think>".data ++ c ++ "</think>".data ++ b) [] (7 + c.length + 8) hm
  have hshape : ("<think>".data ++ c ++ "</think>".data ++ b) =
      '<' :: ("think>".data ++ c ++ "</think>".data ++ b) := by simp
  rw [hshape, hstep]
  have hdropb : List.drop (7 + c.length + 8)
      ('<' :: ("think>".data ++ c ++ "</think>".data ++ b)) = b := by
    have h1 : '<' :: ("think>".data ++ c ++ "</think>".data ++ b) =
        ("<think>".data ++ c ++ "</think>".data) ++ b := by simp
    have h2 : 7 + c.length + 8 = ("<think>".data ++ c ++ "</think>".data).length := by
      simp only [List.length_append, List.length_cons, List.length_nil,
        String.data]
      try omega
    rw [h1, h2, List.drop_left]
  rw [hdropb]
  rfl

theorem fence1Pass_block (a body b : List Char) (ha : ∀ x ∈ a, x ≠ '`')
    (hb : ∀ x ∈ body, x ≠ '`') :
    passOf fence1M (a ++ ("```".data ++ body ++ "```".data ++ b)) =
      a ++ passOf fence1M b := by
  rw [passOf_append_headFree fence1M (fun x => x ≠ '`')
    (fun ch t hch => fence1M_none_of_head ch t hch) a _ ha]
  congr 1
  have hm : fence1M ('`' :: ("``".data ++ body ++ "```".data ++ b)) =
      some ([], body.length + 6) := fence1M_block body b hb
  have hstep := passOf_match fence1M fence1M_pos '`'
    ("``".data ++ body ++ "```".data ++ b) [] (body.length + 6) hm
  have hshape : ("```".data ++ body ++ "```".data ++ b) =
      '`' :: ("``".data ++ body ++ "```".data ++ b) := by simp
  rw [hshape, hstep]
  have hdropb : List.drop (body.length + 6)
      ('`' :: ("``".data ++ body ++ "```".data ++ b)) = b := by
    have h1 : '`' :: ("``".data ++ body ++ "```".data ++ b) =
        ("```".data ++ body ++ "```".data) ++ b := by simp
    have h2 : body.length + 6 = ("```".data ++ body ++ "```".data).length := by
      simp only [List.length_append, List.length_cons, List.length_nil,
        String.data]
      try omega
    rw [h1, h2, List.drop_left]
  rw [hdropb]
  rfl

/-- C6 counterexample: the `p0` think regex `<think>[^<]*</think>` cannot
match a block whose content contains `<`, so this think block survives the
whole `p0` sanitizer unchanged — the claim that every `<think>...</think>`
block is removed is false (and the `eo.cpp` revision, also cited by the
claim, performs no think or fence stripping at all). -/
theorem c6_counterexample :
    sanitize_p0 "<think>a<b</think>".data = "<think>a<b</think>".data ∧
    containsSeq "<think>".data (sanitize_p0 "<think>a<b</think>".data) = true := by
  constructor
  · decide
  · decide

/-- C6 amended: in the `p0` revision the sanitizer removes, before any bold
or color rewriting, every `<think>...</think>` block whose content contains
no `<`, and every triple-backtick fence whose enclosed text contains no
backtick; the matches fire anywhere after a trigger-free prefix, and a
think block at the head of the reply is dropped by the whole pipeline
(so `**` markers inside it never reach the bold pass).  Think blocks with
`<` in their content (and fences with a stray backtick inside) survive, and
the `eo.cpp` revision has no think/fence stripping at all. -/
theorem c6_amended_strip (a c body b : List Char)
    (haL : ∀ x ∈ a, x ≠ '<') (hc : ∀ x ∈ c, x ≠ '<')
    (haB : ∀ x ∈ a, x ≠ '`') (hbody : ∀ x ∈ body, x ≠ '`') :
    thinkPass (a ++ ("<think>".data ++ c ++ "</think>".data ++ b)) = a ++ thinkPass b ∧
    passOf fence1M (a ++ ("```".data ++ body ++ "```".data ++ b)) =
      a ++ passOf fence1M b ∧
    sanitize_p0 ("<think>".data ++ c ++ "</think>".data ++ b) = sanitize_p0 b := by
  refine ⟨thinkPass_block a c b haL hc, fence1Pass_block a body b haB hbody, ?_⟩
  unfold sanitize_p0
  have h0 := thinkPass_block [] c b (by simp) hc
  simp only [List.nil_append] at h0
  rw [h0]

theorem c6_witness :
    ((∀ x ∈ "x: ".data, x ≠ '<') ∧ (∀ x ∈ "plan **now**".data, x ≠ '<') ∧
      (∀ x ∈ "x: ".data, x ≠ '`') ∧ (∀ x ∈ "print(1)".data, x ≠ '`')) ∧
    (thinkPass ("x: ".data ++ ("<think>".data ++ "plan **now**".data ++
        "</think>".data ++ "done".data)) = "x: ".data ++ thinkPass "done".data ∧
      passOf fence1M ("x: ".data ++ ("```".data ++ "print(1)".data ++ "```".data ++
        "done".data)) = "x: ".data ++ passOf fence1M "done".data ∧
      sanitize_p0 ("<think>".data ++ "plan **now**".data ++ "</think>".data ++
        "done".data) = sanitize_p0 "done".data) :=
  ⟨⟨by decide, by decide, by decide, by decide⟩,
    c6_amended_strip "x: ".data "plan **now**".data "print(1)".data "done".data
      (by decide) (by decide) (by decide) (by decide)⟩

/-! ### Claim C9 -/

/-- C9 (code bug): the `Metric`/`Value` first-line shortcut classifies this
input as a table without checking rectangularity, but `format_table` sizes
`col_widths` from the first parsed row (2 entries) and then iterates every
row's fields, writing `col_widths[2]` for the 3-field second row — an
out-of-bounds `std::vector` access (undefined behavior), modelled as
`format_table = none`. -/
theorem c9_col_widths_out_of_bounds :
    detect_format_eo "Metric Value\na b c".data = Format.TABLE ∧
    (∃ r ∈ tableRows "Metric Value\na b c".data,
      ((tableRows "Metric Value\na b c".data).headD []).length < r.length) ∧
    format_table "Metric Value\na b c".data = none := by
  refine ⟨by decide, by decide, by decide⟩

/-! ### Claim C5 -/

/-- C5 counterexample: a parsable but non-conforming listing body — the
bare array `[]` — passes `check_service`, yet `models["models"]` at
`eo.cpp:174` runs outside the `try` block and requires the listing to be
an object holding that key, so on any non-empty stdin the process
terminates abnormally (assertion abort / uncaught `type_error`) instead of
exiting 0: "exit 0 on success and no other exit codes" is not a property
of the source. -/
theorem c5_counterexample :
    check_service (some (200, "[]".data)) = some (JsonVal.arr []) ∧
    selectModelName (JsonVal.arr []) = none ∧
    main_eo (some (200, "[]".data)) "x".data none true = ⟨none, none, true⟩ :=
  ⟨rfl, rfl, rfl⟩

/-- C5 amended: the modelled `main` of `eo.cpp` exits 1, writes nothing to
stdout, and does not read stdin whenever the model-listing call fails
(service unreachable, non-200 status, or unparsable body); with a
successful listing it exits 0 on empty stdin (printing the neutral
notice), and on every run where the `eo.cpp:174` model selection survives
and the table path stays in bounds; a successful listing never leads to
exit 1; but besides exit 0 and exit 1 a third outcome exists — abnormal
termination (`exitCode = none`), reached from parsable non-conforming
listings (the counterexample) and from the C9 out-of-bounds table path. -/
theorem c5_exit_codes :
    (∀ stdin_ gen uc, main_eo none stdin_ gen uc = ⟨some 1, some [], false⟩) ∧
    (∀ st body stdin_ gen uc, st ≠ 200 →
      main_eo (some (st, body)) stdin_ gen uc = ⟨some 1, some [], false⟩) ∧
    (∀ body stdin_ gen uc, parseJson body = none →
      main_eo (some (200, body)) stdin_ gen uc = ⟨some 1, some [], false⟩) ∧
    (∀ listing gen uc m, check_service listing = some m →
      main_eo listing [] gen uc = ⟨some 0, some "No input provided.\n".data, true⟩) ∧
    (∀ listing stdin_ gen uc m, check_service listing = some m →
      selectModelName m ≠ none →
      (detect_format_eo stdin_ = Format.TABLE → format_table stdin_ ≠ none) →
      (main_eo listing stdin_ gen uc).exitCode = some 0) ∧
    (∀ listing stdin_ gen uc m, check_service listing = some m →
      (main_eo listing stdin_ gen uc).exitCode ≠ some 1) ∧
    (∀ listing stdin_ gen uc, (main_eo listing stdin_ gen uc).exitCode = some 0 ∨
      (main_eo listing stdin_ gen uc).exitCode = some 1 ∨
      (main_eo listing stdin_ gen uc).exitCode = none) := by
  have hfail : ∀ listing stdin_ gen uc, check_service listing = none →
      main_eo listing stdin_ gen uc = ⟨some 1, some [], false⟩ := by
    intro listing stdin_ gen uc h
    unfold main_eo
    rw [h]
  have hok : ∀ listing stdin_ gen uc m, check_service listing = some m →
      selectModelName m ≠ none →
      (detect_format_eo stdin_ = Format.TABLE → format_table stdin_ ≠ none) →
      (main_eo listing stdin_ gen uc).exitCode = some 0 := by
    intro listing stdin_ gen uc m h hsel htab
    unfold main_eo
    rw [h]
    by_cases he : stdin_ = []
    · simp [he]
    · simp only [if_neg he]
      have hai : ∃ a, enhance_with_ai m gen uc = some a := by
        unfold enhance_with_ai
        cases hs : selectModelName m with
        | none => exact absurd hs hsel
        | some nm => exact ⟨_, rfl⟩
      obtain ⟨a, ha⟩ := hai
      cases hdf : detect_format_eo stdin_ with
      | JSON => rw [ha]
      | TABLE =>
        cases hft : format_table stdin_ with
        | none => exact absurd hft (htab hdf)
        | some t => rw [ha]
      | PLAIN_TEXT => rw [ha]
  have hne1 : ∀ listing stdin_ gen uc m, check_service listing = some m →
      (main_eo listing stdin_ gen uc).exitCode ≠ some 1 := by
    intro listing stdin_ gen uc m h
    unfold main_eo
    rw [h]
    by_cases he : stdin_ = []
    · simp [he]
    · simp only [if_neg he]
      cases detect_format_eo stdin_ with
      | JSON => cases enhance_with_ai m gen uc <;> simp
      | TABLE =>
        cases format_table stdin_ with
        | none => simp
        | some t => cases enhance_with_ai m gen uc <;> simp
      | PLAIN_TEXT => cases enhance_with_ai m gen uc <;> simp
  have htri : ∀ listing stdin_ gen uc, (main_eo listing stdin_ gen uc).exitCode = some 0 ∨
      (main_eo listing stdin_ gen uc).exitCode = some 1 ∨
      (main_eo listing stdin_ gen uc).exitCode = none := by
    intro listing stdin_ gen uc
    unfold main_eo
    cases check_service listing with
    | none => right; left; rfl
    | some m =>
      by_cases he : stdin_ = []
      · simp [he]
      · simp only [if_neg he]
        cases detect_format_eo stdin_ with
        | JSON =>
          cases enhance_with_ai m gen uc with
          | none => right; right; rfl
          | some a => left; rfl
        | TABLE =>
          cases format_table stdin_ with
          | none => right; right; rfl
          | some t =>
            cases enhance_with_ai m gen uc with
            | none => right; right; rfl
            | some a => left; rfl
        | PLAIN_TEXT =>
          cases enhance_with_ai m gen uc with
          | none => right; right; rfl
          | some a => left; rfl
  refine ⟨?_, ?_, ?_, ?_, hok, hne1, htri⟩
  · intro stdin_ gen uc
    exact hfail none stdin_ gen uc rfl
  · intro st body stdin_ gen uc hst
    exact hfail _ _ gen uc (by simp [check_service, hst])
  · intro body stdin_ gen uc hp
    exact hfail _ _ gen uc (by simp [check_service, hp])
  · intro listing gen uc m h
    unfold main_eo
    rw [h]
    rfl

theorem c5_witness :
    main_eo none "x".data none true = ⟨some 1, some [], false⟩ ∧
    main_eo (some (500, [])) "x".data none true = ⟨some 1, some [], false⟩ ∧
    main_eo (some (200, "oops".data)) "x".data none true = ⟨some 1, some [], false⟩ ∧
    main_eo (some (200, "\x7b\"models\":[]\x7d".data)) [] none true =
      ⟨some 0, some "No input provided.\n".data, true⟩ ∧
    (main_eo (some (200, "\x7b\"models\":[]\x7d".data)) "x".data none true).exitCode =
      some 0 ∧
    (main_eo (some (200, "[]".data)) "x".data none true).exitCode ≠ some 1 ∧
    ((main_eo (some (200, "[]".data)) "x".data none true).exitCode = some 0 ∨
      (main_eo (some (200, "[]".data)) "x".data none true).exitCode = some 1 ∨
      (main_eo (some (200, "[]".data)) "x".data none true).exitCode = none) :=
  ⟨c5_exit_codes.1 "x".data none true,
    c5_exit_codes.2.1 500 [] "x".data none true (by decide),
    c5_exit_codes.2.2.1 "oops".data "x".data none true (by rfl),
    c5_exit_codes.2.2.2.1 (some (200, "\x7b\"models\":[]\x7d".data)) none true
      (.obj [("models".data, .arr [])]) (by rfl),
    c5_exit_codes.2.2.2.2.1 (some (200, "\x7b\"models\":[]\x7d".data)) "x".data none true
      (.obj [("models".data, .arr [])]) (by rfl) (by decide)
      (fun _ => by decide),
    c5_exit_codes.2.2.2.2.2.1 (some (200, "[]".data)) "x".data none true (.arr [])
      (by rfl),
    c5_exit_codes.2.2.2.2.2.2 (some (200, "[]".data)) "x".data none true⟩

/-! ### Detection lemmas and claims C2, C3 -/

theorem skipWs_cons_of (c : Char) (t : List Char) (hc : isJsonWs c = false) :
    skipWs (c :: t) = c :: t := by
  simp [skipWs, List.dropWhile_cons, hc]

theorem parseObjRest_shape : ∀ (f : Nat) (s : List Char) acc (v : JsonVal) r,
    parseObjRest f s acc = some (v, r) → ∃ fs, v = JsonVal.obj fs := by
  intro f
  induction f with
  | zero =>
    intro s acc v r h
    exact absurd h (by simp [parseObjRest])
  | succ f ih =>
    intro s acc v r h
    simp only [parseObjRest] at h
    repeat' split at h
    all_goals first
      | (simp only [Option.some.injEq, Prod.mk.injEq] at h
         exact ⟨_, h.1.symm⟩)
      | exact ih _ _ _ _ h
      | simp at h

theorem parseArrRest_shape : ∀ (f : Nat) (s : List Char) acc (v : JsonVal) r,
    parseArrRest f s acc = some (v, r) → ∃ es, v = JsonVal.arr es := by
  intro f
  induction f with
  | zero =>
    intro s acc v r h
    exact absurd h (by simp [parseArrRest])
  | succ f ih =>
    intro s acc v r h
    simp only [parseArrRest] at h
    repeat' split at h
    all_goals first
      | (simp only [Option.some.injEq, Prod.mk.injEq] at h
         exact ⟨_, h.1.symm⟩)
      | exact ih _ _ _ _ h
      | simp at h

theorem parseValue_head_obj (f : Nat) (r : List Char) (v : JsonVal) (rest : List Char)
    (h : parseValue (f + 1) ('\x7b' :: r) = some (v, rest)) : ∃ fs, v = JsonVal.obj fs := by
  simp only [parseValue] at h
  rw [skipWs_cons_of _ _ (by decide)] at h
  simp only [Char.reduceEq, reduceIte] at h
  repeat' split at h
  all_goals first
    | (simp only [Option.some.injEq, Prod.mk.injEq] at h
       exact ⟨_, h.1.symm⟩)
    | exact parseObjRest_shape _ _ _ _ _ h
    | simp at h

theorem parseValue_head_arr (f : Nat) (r : List Char) (v : JsonVal) (rest : List Char)
    (h : parseValue (f + 1) ('[' :: r) = some (v, rest)) : ∃ es, v = JsonVal.arr es := by
  simp only [parseValue] at h
  rw [skipWs_cons_of _ _ (by decide)] at h
  simp only [Char.reduceEq, reduceIte] at h
  repeat' split at h
  all_goals first
    | (simp only [Option.some.injEq, Prod.mk.injEq] at h
       exact ⟨_, h.1.symm⟩)
    | exact parseArrRest_shape _ _ _ _ _ h
    | simp at h

theorem parseJson_head_structured (s : List Char) (j : JsonVal)
    (hh : s.headD ' ' = '\x7b' ∨ s.headD ' ' = '[') (h : parseJson s = some j) :
    j.isObjOrArr = true := by
  rcases s with _ | ⟨c, t⟩
  · simp at hh
  · simp only [List.headD_cons] at hh
    unfold parseJson at h
    have hbom : bomStrip (c :: t) = c :: t := by
      unfold bomStrip
      rw [if_neg]
      rw [List.headD_cons]
      rcases hh with rfl | rfl <;> decide
    rw [hbom] at h
    obtain ⟨f, hf⟩ : ∃ f, 4 * (c :: t).length + 8 = f + 1 :=
      ⟨4 * (c :: t).length + 7, by omega⟩
    rw [hf] at h
    cases hpv : parseValue (f + 1) (c :: t) with
    | none => rw [hpv] at h; exact absurd h (by simp)
    | some p =>
      obtain ⟨v, rest⟩ := p
      rw [hpv] at h
      change (if skipWs rest = [] then some v else none) = some j at h
      split at h
      · simp only [Option.some.injEq] at h
        subst h
        rcases hh with rfl | rfl
        · obtain ⟨fs, rfl⟩ := parseValue_head_obj f t v rest hpv
          rfl
        · obtain ⟨es, rfl⟩ := parseValue_head_arr f t v rest hpv
          rfl
      · exact absurd h (by simp)

theorem rectTableCheck_ne_json (s : List Char) : rectTableCheck s ≠ Format.JSON := by
  unfold rectTableCheck
  split <;> simp

theorem tableDetect_ne_json (s : List Char) : tableDetect_eo s ≠ Format.JSON := by
  unfold tableDetect_eo
  split
  · simp
  · exact rectTableCheck_ne_json s

/-- C2 counterexample: `" {}"` parses as a top-level JSON object (nlohmann
skips leading whitespace), but `detect_format` of `eo.cpp` only attempts
the JSON parse when the first byte is `{` or `[`, so it classifies this
input as plain text instead of JSON. -/
theorem c2_counterexample :
    (parseJson " \x7b\x7d".data).map JsonVal.isObjOrArr = some true ∧
    detect_format_eo " \x7b\x7d".data = Format.PLAIN_TEXT := by
  exact ⟨by decide, by decide⟩

/-- C2 amended: in `eo.cpp`, detection returns Json exactly when the first
byte is `{` or `[` and the full parse succeeds — object/array documents
with leading whitespace are misclassified; the `p0` revision satisfies the
original claim (parse success with top-level object or array → Json).  In
both revisions a JSON scalar literal is never classified Json, and a parse
failure falls through to the table and plain-text checks. -/
theorem c2_amended_detect_json :
    (∀ s : List Char, (s.headD ' ' = '\x7b' ∨ s.headD ' ' = '[') →
      (parseJson s).isSome = true → detect_format_eo s = Format.JSON) ∧
    (∀ (s : List Char) (j : JsonVal), parseJson s = some j → j.isObjOrArr = true →
      detect_format_p0 s = Format.JSON) ∧
    (∀ (s : List Char) (j : JsonVal), parseJson s = some j → j.isObjOrArr = false →
      detect_format_eo s ≠ Format.JSON ∧ detect_format_p0 s ≠ Format.JSON) ∧
    (∀ s : List Char, parseJson s = none →
      detect_format_eo s = tableDetect_eo s ∧ detect_format_p0 s = rectTableCheck s) := by
  refine ⟨?_, ?_, ?_, ?_⟩
  · intro s hh hsome
    have hne : s ≠ [] := by
      intro he
      subst he
      rcases hh with hh | hh <;> exact absurd hh (by decide)
    have hcond : ((s.headD ' ' = '\x7b' || s.headD ' ' = '[') &&
        (parseJson s).isSome) = true := by
      rw [Bool.and_eq_true, Bool.or_eq_true]
      refine ⟨?_, hsome⟩
      rcases hh with hh | hh
      · exact Or.inl (decide_eq_true hh)
      · exact Or.inr (decide_eq_true hh)
    unfold detect_format_eo
    rw [if_neg hne, if_pos hcond]
  · intro s j hp hoa
    have hne : s ≠ [] := by
      intro he
      subst he
      rw [show parseJson ([] : List Char) = none from rfl] at hp
      exact absurd hp (by simp)
    unfold detect_format_p0
    rw [if_neg hne]
    simp [hp, hoa]
  · intro s j hp hoa
    constructor
    · unfold detect_format_eo
      by_cases hne : s = []
      · simp [hne]
      · rw [if_neg hne]
        by_cases hh : s.headD ' ' = '\x7b' ∨ s.headD ' ' = '['
        · exact absurd (parseJson_head_structured s j hh hp) (by simp [hoa])
        · push_neg at hh
          have hfb : (s.headD ' ' = '\x7b' || s.headD ' ' = '[') = false := by
            rw [Bool.or_eq_false_iff]
            exact ⟨decide_eq_false hh.1, decide_eq_false hh.2⟩
          rw [hfb]
          simp only [Bool.false_and, if_false]
          exact tableDetect_ne_json s
    · unfold detect_format_p0
      by_cases hne : s = []
      · simp [hne]
      · rw [if_neg hne]
        simp only [hp, hoa, Bool.false_eq_true, if_false]
        exact rectTableCheck_ne_json s
  · intro s hp
    constructor
    · unfold detect_format_eo
      by_cases hne : s = []
      · subst hne
        simp [tableDetect_eo, rectTableCheck, containsSeq, linesOf, fieldCounts]
      · rw [if_neg hne, hp]
        simp
    · unfold detect_format_p0
      by_cases hne : s = []
      · subst hne
        simp [rectTableCheck, fieldCounts, linesOf]
      · rw [if_neg hne]
        simp only [hp]

theorem c2_witness :
    detect_format_eo "\x7b\"a\":1\x7d".data = Format.JSON ∧
    detect_format_p0 " \x7b\x7d".data = Format.JSON ∧
    (detect_format_eo "5".data ≠ Format.JSON ∧ detect_format_p0 "5".data ≠ Format.JSON) ∧
    (detect_format_eo "not json\x7d".data = tableDetect_eo "not json\x7d".data ∧
      detect_format_p0 "not json\x7d".data = rectTableCheck "not json\x7d".data) :=
  ⟨c2_amended_detect_json.1 "\x7b\"a\":1\x7d".data (by decide) (by rfl),
    c2_amended_detect_json.2.1 " \x7b\x7d".data (.obj []) (by rfl) (by rfl),
    c2_amended_detect_json.2.2.1 "5".data (.numInt 5) (by rfl) (by rfl),
    c2_amended_detect_json.2.2.2 "not json\x7d".data (by rfl)⟩

/-- C3 counterexample: the single-line input `"Metric Value"` is classified
as a table by `eo.cpp` through the nvme-smart-log first-line shortcut, so
the claim that detection never returns Table for a single-line input is
false for this revision. -/
theorem c3_counterexample :
    detect_format_eo "Metric Value".data = Format.TABLE ∧
    (linesOf "Metric Value".data).length = 1 := by
  exact ⟨by decide, by decide⟩

/-- C3 amended: for `eo.cpp`, rectangular inputs with more than one line
and more than one column are classified Table whenever the input is not
classified Json; single-line and all-single-field inputs are never Table
UNLESS the first line contains both `Metric` and `Value` (the smart-log
shortcut, which skips the rectangularity and line-count checks entirely).
The `p0` revision has no shortcut and satisfies the original claim in
full: never Table for single-line or all-single-field inputs, and always
Table for non-Json rectangular inputs with more than one line and more
than one column. -/
theorem c3_amended_table_detect :
    (∀ s : List Char, detect_format_eo s ≠ Format.JSON →
      (∀ n ∈ fieldCounts s, n = (fieldCounts s).headD 0) →
      1 < (fieldCounts s).length → 1 < (fieldCounts s).headD 0 →
      detect_format_eo s = Format.TABLE) ∧
    (∀ s : List Char,
      ¬(containsSeq "Metric".data ((linesOf s).headD []) = true ∧
        containsSeq "Value".data ((linesOf s).headD []) = true) →
      ((linesOf s).length ≤ 1 ∨ ∀ n ∈ fieldCounts s, n ≤ 1) →
      detect_format_eo s ≠ Format.TABLE) ∧
    (∀ s : List Char, ((linesOf s).length ≤ 1 ∨ ∀ n ∈ fieldCounts s, n ≤ 1) →
      detect_format_p0 s ≠ Format.TABLE) ∧
    (∀ s : List Char, detect_format_p0 s ≠ Format.JSON →
      (∀ n ∈ fieldCounts s, n = (fieldCounts s).headD 0) →
      1 < (fieldCounts s).length → 1 < (fieldCounts s).headD 0 →
      detect_format_p0 s = Format.TABLE) := by
  have hrect_pos : ∀ s : List Char, (∀ n ∈ fieldCounts s, n = (fieldCounts s).headD 0) →
      1 < (fieldCounts s).length → 1 < (fieldCounts s).headD 0 →
      rectTableCheck s = Format.TABLE := by
    intro s h1 h2 h3
    unfold rectTableCheck
    rw [if_pos ⟨h1, h2, h3⟩]
  have hrect_neg : ∀ s : List Char,
      ((linesOf s).length ≤ 1 ∨ ∀ n ∈ fieldCounts s, n ≤ 1) →
      rectTableCheck s ≠ Format.TABLE := by
    intro s hs
    unfold rectTableCheck
    rw [if_neg]
    · simp
    · rintro ⟨-, h2, h3⟩
      have hlen : (fieldCounts s).length = (linesOf s).length := by
        simp [fieldCounts]
      rcases hs with hs | hs
      · omega
      · rcases hfc : fieldCounts s with _ | ⟨n0, rest⟩
        · rw [hfc] at h3
          simp at h3
        · rw [hfc] at h3
          have := hs n0 (by rw [hfc]; exact List.mem_cons_self n0 rest)
          simp only [List.headD_cons] at h3
          omega
  refine ⟨?_, ?_, ?_, ?_⟩
  · intro s hnj h1 h2 h3
    unfold detect_format_eo at hnj ⊢
    by_cases hne : s = []
    · subst hne
      have : (fieldCounts ([] : List Char)).length = 0 := by decide
      omega
    · rw [if_neg hne] at hnj ⊢
      by_cases hj : ((s.headD ' ' = '\x7b' || s.headD ' ' = '[') &&
          (parseJson s).isSome) = true
      · rw [if_pos hj] at hnj
        exact absurd rfl hnj
      · rw [if_neg hj] at hnj ⊢
        unfold tableDetect_eo
        split
        · rfl
        · exact hrect_pos s h1 h2 h3
  · intro s hmv hs
    unfold detect_format_eo
    by_cases hne : s = []
    · simp [hne]
    · rw [if_neg hne]
      by_cases hj : ((s.headD ' ' = '\x7b' || s.headD ' ' = '[') &&
          (parseJson s).isSome) = true
      · rw [if_pos hj]
        simp
      · rw [if_neg hj]
        unfold tableDetect_eo
        rw [if_neg]
        · exact hrect_neg s hs
        · rw [Bool.and_eq_true]
          exact fun hc => hmv ⟨hc.1, hc.2⟩
  · intro s hs
    unfold detect_format_p0
    by_cases hne : s = []
    · simp [hne]
    · rw [if_neg hne]
      cases hp : parseJson s with
      | none => exact hrect_neg s hs
      | some j =>
        show (if j.isObjOrArr = true then Format.JSON else rectTableCheck s) ≠ Format.TABLE
        by_cases hoa : j.isObjOrArr = true
        · rw [if_pos hoa]
          simp
        · rw [if_neg hoa]
          exact hrect_neg s hs
  · intro s hnj h1 h2 h3
    by_cases hne : s = []
    · subst hne
      have h0 : (fieldCounts ([] : List Char)).length = 0 := by decide
      omega
    · unfold detect_format_p0
      rw [if_neg hne]
      cases hp : parseJson s with
      | none => exact hrect_pos s h1 h2 h3
      | some j =>
        show (if j.isObjOrArr = true then Format.JSON else rectTableCheck s) = Format.TABLE
        by_cases hoa : j.isObjOrArr = true
        · exfalso
          apply hnj
          unfold detect_format_p0
          rw [if_neg hne, hp]
          show (if j.isObjOrArr = true then Format.JSON else rectTableCheck s) = Format.JSON
          rw [if_pos hoa]
        · rw [if_neg hoa]
          exact hrect_pos s h1 h2 h3

theorem c3_witness :
    detect_format_eo "a b\nc d".data = Format.TABLE ∧
    detect_format_eo "hello world".data ≠ Format.TABLE ∧
    detect_format_p0 "hello world".data ≠ Format.TABLE ∧
    detect_format_p0 "a b\nc d".data = Format.TABLE :=
  ⟨c3_amended_table_detect.1 "a b\nc d".data (by decide) (by decide) (by decide) (by decide),
    c3_amended_table_detect.2.1 "hello world".data (by decide) (by decide),
    c3_amended_table_detect.2.2.1 "hello world".data (by decide),
    c3_amended_table_detect.2.2.2 "a b\nc d".data (by decide) (by decide) (by decide)
      (by decide)⟩

/-! ### Sorted-keys invariant of the parser, and claim C4 -/

theorem objsSorted_obj_iff (fs : List (List Char × JsonVal)) :
    ObjsSorted (.obj fs) ↔ KeysSorted fs ∧ ObjsSortedKV fs := Iff.rfl

theorem objsSorted_arr_iff (es : List JsonVal) :
    ObjsSorted (.arr es) ↔ ObjsSortedL es := Iff.rfl

theorem insertKV_mem (k : List Char) (v : JsonVal) :
    ∀ (l : List (List Char × JsonVal)) (x : List Char × JsonVal),
      x ∈ insertKV k v l → x = (k, v) ∨ x ∈ l := by
  intro l
  induction l with
  | nil =>
    intro x hx
    simp only [insertKV, List.mem_singleton] at hx
    exact Or.inl hx
  | cons kv t ih =>
    intro x hx
    obtain ⟨k', v'⟩ := kv
    simp only [insertKV] at hx
    split at hx
    · rcases List.mem_cons.mp hx with rfl | hx
      · exact Or.inl rfl
      · exact Or.inr hx
    · split at hx
      · rcases List.mem_cons.mp hx with rfl | hx
        · exact Or.inl rfl
        · exact Or.inr (List.mem_cons_of_mem _ hx)
      · rcases List.mem_cons.mp hx with rfl | hx
        · exact Or.inr (List.mem_cons_self _ _)
        · rcases ih x hx with h | h
          · exact Or.inl h
          · exact Or.inr (List.mem_cons_of_mem _ h)

theorem insertKV_sorted (k : List Char) (v : JsonVal) :
    ∀ l, KeysSorted l → KeysSorted (insertKV k v l) := by
  intro l
  induction l with
  | nil =>
    intro _
    exact List.pairwise_singleton _ _
  | cons kv t ih =>
    intro hs
    obtain ⟨k', v'⟩ := kv
    obtain ⟨hhead, htail⟩ := List.pairwise_cons.mp hs
    simp only [insertKV]
    split
    · next hlt =>
      refine List.Pairwise.cons ?_ hs
      intro b hb
      rcases List.mem_cons.mp hb with rfl | hb
      · exact hlt
      · exact lt_trans hlt (hhead b hb)
    · split
      · next heq =>
        subst heq
        exact List.Pairwise.cons hhead htail
      · next hnlt hne =>
        have hgt : k' < k := by
          rcases lt_trichotomy k k' with hlt | heq | hgt
          · exact absurd hlt hnlt
          · exact absurd heq hne
          · exact hgt
        refine List.Pairwise.cons ?_ (ih htail)
        intro b hb
        rcases insertKV_mem k v t b hb with rfl | hb
        · exact hgt
        · exact hhead b hb

theorem insertKV_objs (k : List Char) (v : JsonVal) :
    ∀ l, ObjsSortedKV l → ObjsSorted v → ObjsSortedKV (insertKV k v l) := by
  intro l
  induction l with
  | nil =>
    intro _ hv
    exact ⟨hv, True.intro⟩
  | cons kv t ih =>
    intro hl hv
    obtain ⟨k', v'⟩ := kv
    obtain ⟨h1, h2⟩ := hl
    simp only [insertKV]
    split
    · exact ⟨hv, h1, h2⟩
    · split
      · exact ⟨hv, h2⟩
      · exact ⟨h1, ih h2 hv⟩

theorem objsSortedL_append (acc : List JsonVal) (v : JsonVal) :
    ObjsSortedL acc → ObjsSorted v → ObjsSortedL (acc ++ [v]) := by
  induction acc with
  | nil =>
    intro _ hv
    exact ⟨hv, True.intro⟩
  | cons e es ih =>
    intro hl hv
    obtain ⟨h1, h2⟩ := hl
    exact ⟨h1, ih h2 hv⟩

theorem classifyNumber_sorted : ∀ neg intDs tok isInt rest v r,
    classifyNumber neg intDs tok isInt rest = some (v, r) → ObjsSorted v := by
  intro neg intDs tok isInt rest v r h
  unfold classifyNumber at h
  cases isInt with
  | false =>
    rw [if_neg (by simp)] at h
    simp only [Option.some.injEq, Prod.mk.injEq] at h
    obtain ⟨h1, -⟩ := h
    subst h1
    exact True.intro
  | true =>
    rw [if_pos rfl] at h
    cases neg with
    | false =>
      rw [if_neg (by simp)] at h
      by_cases h3 : natOfDigits intDs < 2 ^ 64
      · rw [if_pos h3] at h
        simp only [Option.some.injEq, Prod.mk.injEq] at h
        obtain ⟨h1, -⟩ := h
        subst h1
        exact True.intro
      · rw [if_neg h3] at h
        simp only [Option.some.injEq, Prod.mk.injEq] at h
        obtain ⟨h1, -⟩ := h
        subst h1
        exact True.intro
    | true =>
      rw [if_pos rfl] at h
      by_cases h3 : natOfDigits intDs ≤ 2 ^ 63
      · rw [if_pos h3] at h
        simp only [Option.some.injEq, Prod.mk.injEq] at h
        obtain ⟨h1, -⟩ := h
        subst h1
        exact True.intro
      · rw [if_neg h3] at h
        simp only [Option.some.injEq, Prod.mk.injEq] at h
        obtain ⟨h1, -⟩ := h
        subst h1
        exact True.intro

theorem parseFracExp_sorted : ∀ neg intDs s v r,
    parseFracExp neg intDs s = some (v, r) → ObjsSorted v := by
  intro neg intDs s v r h
  unfold parseFracExp at h
  split at h
  · next r2 =>
    by_cases he : (List.takeWhile isDigitC r2).isEmpty = true
    · rw [if_pos he] at h
      exact absurd h (by simp)
    · rw [if_neg he] at h
      cases hpe : parseExpPart (List.drop (List.takeWhile isDigitC r2).length r2) with
      | none =>
        rw [hpe] at h
        exact absurd h (by simp)
      | some trip =>
        obtain ⟨ex, isInt2, rest2⟩ := trip
        rw [hpe] at h
        exact classifyNumber_sorted _ _ _ _ _ _ _ h
  · cases hpe : parseExpPart s with
    | none =>
      rw [hpe] at h
      exact absurd h (by simp)
    | some trip =>
      obtain ⟨ex, isInt2, rest2⟩ := trip
      rw [hpe] at h
      exact classifyNumber_sorted _ _ _ _ _ _ _ h

theorem parseNumber_sorted : ∀ s v r, parseNumber s = some (v, r) → ObjsSorted v := by
  intro s v r h
  unfold parseNumber at h
  repeat' split at h
  all_goals first
    | exact parseFracExp_sorted _ _ _ _ _ h
    | simp only [reduceCtorEq] at h

set_option maxHeartbeats 2000000 in
theorem parse_sorted : ∀ f : Nat,
    (∀ s v r, parseValue f s = some (v, r) → ObjsSorted v) ∧
    (∀ s acc v r, KeysSorted acc → ObjsSortedKV acc →
      parseObjRest f s acc = some (v, r) → ObjsSorted v) ∧
    (∀ s acc v r, ObjsSortedL acc → parseArrRest f s acc = some (v, r) →
      ObjsSorted v) := by
  intro f
  induction f with
  | zero =>
    refine ⟨?_, ?_, ?_⟩ <;> intro s <;> intros <;>
      simp_all [parseValue, parseObjRest, parseArrRest]
  | succ f ih =>
    obtain ⟨ihV, ihO, ihA⟩ := ih
    refine ⟨?_, ?_, ?_⟩
    · intro s v r h
      simp only [parseValue] at h
      repeat' split at h
      all_goals first
        | simp only [reduceCtorEq] at h
        | (refine ihO _ _ _ _ ?_ ?_ h
           · exact List.Pairwise.nil
           · exact True.intro)
        | (refine ihA _ _ _ _ ?_ h
           exact True.intro)
        | exact parseNumber_sorted _ _ _ h
        | (simp only [Option.some.injEq, Prod.mk.injEq] at h
           obtain ⟨h1, -⟩ := h
           subst h1
           first
             | exact True.intro
             | exact ⟨List.Pairwise.nil, True.intro⟩)
        | (rw [Option.map_eq_some'] at h
           obtain ⟨p, -, hp2⟩ := h
           simp only [Prod.mk.injEq] at hp2
           obtain ⟨h1, -⟩ := hp2
           subst h1
           exact True.intro)
    · intro s acc v r hks hkv h
      simp only [parseObjRest] at h
      repeat' split at h
      all_goals first
        | simp only [reduceCtorEq] at h
        | exact ihO _ _ _ _ (insertKV_sorted _ _ _ hks)
            (insertKV_objs _ _ _ hkv (ihV _ _ _ (by assumption))) h
        | (simp only [Option.some.injEq, Prod.mk.injEq] at h
           obtain ⟨h1, -⟩ := h
           subst h1
           exact ⟨insertKV_sorted _ _ _ hks,
             insertKV_objs _ _ _ hkv (ihV _ _ _ (by assumption))⟩)
    · intro s acc v r hL h
      simp only [parseArrRest] at h
      repeat' split at h
      all_goals first
        | simp only [reduceCtorEq] at h
        | exact ihA _ _ _ _ (objsSortedL_append _ _ hL (ihV _ _ _ (by assumption))) h
        | (simp only [Option.some.injEq, Prod.mk.injEq] at h
           obtain ⟨h1, -⟩ := h
           subst h1
           exact objsSortedL_append _ _ hL (ihV _ _ _ (by assumption)))

theorem parseJson_sorted (s : List Char) (j : JsonVal) (h : parseJson s = some j) :
    ObjsSorted j := by
  unfold parseJson at h
  cases hpv : parseValue (4 * (bomStrip s).length + 8) (bomStrip s) with
  | none => rw [hpv] at h; exact absurd h (by simp)
  | some p =>
    obtain ⟨v, rest⟩ := p
    rw [hpv] at h
    change (if skipWs rest = [] then some v else none) = some j at h
    split at h
    · simp only [Option.some.injEq] at h
      subst h
      exact (parse_sorted _).1 _ _ _ hpv
    · exact absurd h (by simp)

/-- C4 counterexample: nlohmann's default `json` keeps object members in a
`std::map`, so `format_json` re-serializes `{"b":1,"a":2}` with the keys in
ascending order, not in the source order the claim requires. -/
theorem c4_counterexample :
    format_json "\x7b\"b\":1,\"a\":2\x7d".data =
      "\x7b\n    \"a\": 2,\n    \"b\": 1\n\x7d".data ∧
    format_json "\x7b\"b\":1,\"a\":2\x7d".data ≠
      "\x7b\n    \"b\": 1,\n    \"a\": 2\n\x7d".data := by
  exact ⟨by decide, by decide⟩

/-- C4 amended: every parsed value has the keys of every object in
ascending lexicographic order (the `std::map` invariant established by the
parser) — not the source order; the indent width is fixed per revision but
differs between them: `eo.cpp` always dumps with width 4, while the `p0`
revision dumps with width 2 whenever the terminal width is below 100
columns (including the default 80 used when the size ioctl fails) and
with width 4 otherwise.  The serialization equations are stated for
values without non-integer numbers, where `dumpVal` is a faithful model
of nlohmann's `dump` (non-integer numbers go through IEEE-double
round-trip printing, outside this embedding).  For every input that fails
to parse, both revisions return a result carrying the prefix
`Error: Invalid JSON`. -/
theorem c4_amended_format_json :
    (∀ (s : List Char) (j : JsonVal), parseJson s = some j → ObjsSorted j) ∧
    (∀ (s : List Char) (j : JsonVal) (tw : Nat), parseJson s = some j →
      floatFree j = true →
      format_json s = dumpVal 4 0 j ∧
      format_json_p0 tw s = dumpVal (if tw < 100 then 2 else 4) 0 j) ∧
    (∀ (s : List Char) (tw : Nat), parseJson s = none →
      "Error: Invalid JSON".data <+: format_json s ∧
      "Error: Invalid JSON".data <+: format_json_p0 tw s) := by
  refine ⟨?_, ?_, ?_⟩
  · intro s j hp
    exact parseJson_sorted s j hp
  · intro s j tw hp _hff
    constructor
    · unfold format_json
      rw [hp]
    · unfold format_json_p0
      rw [hp]
  · intro s tw hp
    constructor
    · unfold format_json
      rw [hp]
      exact ⟨" ─ [json.exception.parse_error]".data, by decide⟩
    · unfold format_json_p0
      rw [hp]
      show "Error: Invalid JSON".data <+:
        ("Error: Invalid JSON ─ ".data ++ "[json.exception.parse_error]".data)
      exact ⟨" ─ [json.exception.parse_error]".data, by decide⟩

theorem c4_witness :
    ObjsSorted (JsonVal.arr [.numInt 1, .numInt 2]) ∧
    (format_json "[1,2]".data = dumpVal 4 0 (.arr [.numInt 1, .numInt 2]) ∧
      format_json_p0 80 "[1,2]".data =
        dumpVal (if 80 < 100 then 2 else 4) 0 (.arr [.numInt 1, .numInt 2])) ∧
    ("Error: Invalid JSON".data <+: format_json "x".data ∧
      "Error: Invalid JSON".data <+: format_json_p0 80 "x".data) :=
  ⟨c4_amended_format_json.1 "[1,2]".data (.arr [.numInt 1, .numInt 2]) (by rfl),
    c4_amended_format_json.2.1 "[1,2]".data (.arr [.numInt 1, .numInt 2]) 80 (by rfl)
      (by decide),
    c4_amended_format_json.2.2 "x".data 80 (by rfl)⟩

end EnhanceOutput
